import Mathlib

/-!
Shallow embedding of the resource-orchestration core of the `bang` repository
(stack deployment engine): coordination primitives (`SharedNamespace`,
`SharedMap`), the deep-merge helper, the polling primitive, the stage runner,
the security-group rule-set diffing, the server-deployer reconciliation loop,
and the stage planner.  Definitions are translated from the Python source
(`bang/util.py`, `bang/stack.py`, `bang/deployers/*.py`,
`bang/providers/aws.py`, `bang/resources.py`).  Python `dict`s are modelled as
insertion-ordered association lists, machine concurrency as explicit state
passing (one interleaving / a stage-start snapshot for backend reads), and
exceptions as explicit error values.
-/

namespace Bang

/-- JSON-ish values held in config / inventory mappings (`dict` values in the
Python source).  `dict` nodes are insertion-ordered association lists, exactly
the data `deep_merge_dicts` recurses on; everything else is a leaf. -/
inductive Val where
  | nat  : Nat → Val
  | str  : String → Val
  | list : List Val → Val
  | dict : List (String × Val) → Val

/-- Python `d.get(k)` on an insertion-ordered dict. -/
def alookup {κ α : Type} [DecidableEq κ] : List (κ × α) → κ → Option α
  | [], _ => none
  | (k', v) :: rest, k => if k' = k then some v else alookup rest k

/-- Python `d[k] = v` on an insertion-ordered dict: overwrites the existing
entry in place, otherwise appends a new entry at the end. -/
def aset {κ α : Type} [DecidableEq κ] : List (κ × α) → κ → α → List (κ × α)
  | [], k, v => [(k, v)]
  | (k', v') :: rest, k, v =>
      if k' = k then (k, v) :: rest else (k', v') :: aset rest k v

/-- Python `del d[k]` on an insertion-ordered dict (key assumed present;
removing an absent key is a no-op here, matching the single use site where
presence is checked first). -/
def adel {κ α : Type} [DecidableEq κ] : List (κ × α) → κ → List (κ × α)
  | [], _ => []
  | (k', v') :: rest, k => if k' = k then rest else (k', v') :: adel rest k

mutual
/-- Body of one iteration of `deep_merge_dicts`' loop over `incoming`: the
key `ki` with incoming value `vi` is merged recursively when both sides hold
mappings, and overwritten otherwise. -/
def mergeKey (base : List (String × Val)) (ki : String) (vi : Val) :
    List (String × Val) :=
  match alookup base ki, vi with
  | some (Val.dict bd), Val.dict vid =>
      aset base ki (Val.dict (deep_merge_dicts bd vid))
  | _, _ => aset base ki vi
termination_by sizeOf vi

/-- `bang.util.deep_merge_dicts`: in-place deep merge of `incoming` into
`base`.  A key whose value is a mapping in both `base` and `incoming` is
merged recursively; any other key is overwritten with the incoming value. -/
def deep_merge_dicts (base : List (String × Val)) :
    List (String × Val) → List (String × Val)
  | [] => base
  | (ki, vi) :: rest => deep_merge_dicts (mergeKey base ki vi) rest
termination_by incoming => sizeOf incoming
end

/-- `bang.util.SharedMap`: the process-shared inventory aggregate.
`lists` backs group-name → host-list, `dicts` backs host → hostvars. -/
structure SharedMap where
  lists : List (String × List String)
  dicts : List (String × List (String × Val))

/-- The empty `SharedMap` (fresh `manager.dict()`s). -/
def SharedMap.empty : SharedMap := ⟨[], []⟩

/-- `SharedMap.append`: appends `value` to the list named `list_name`
(creating a one-element list when absent or empty — Python truthiness). -/
def SharedMap.append (m : SharedMap) (list_name value : String) : SharedMap :=
  { m with lists := aset m.lists list_name (((alookup m.lists list_name).getD []) ++ [value]) }

/-- `SharedMap.merge`: deep-merges `values` onto the dict named `dict_name`.
The source tests truthiness (`if d:`), so an absent *or empty* stored dict is
replaced by a copy of `values`. -/
def SharedMap.merge (m : SharedMap) (dict_name : String) (values : List (String × Val)) :
    SharedMap :=
  match alookup m.dicts dict_name with
  | some d =>
      if d.isEmpty then { m with dicts := aset m.dicts dict_name values }
      else { m with dicts := aset m.dicts dict_name (deep_merge_dicts d values) }
  | none => { m with dicts := aset m.dicts dict_name values }

/-- `bang.util.SharedNamespace.add_if_unique`: atomically records `name` and
returns `true` iff it was not already recorded.  The namespace contents are
the `manager.list()` of recorded names. -/
def add_if_unique {α : Type} [DecidableEq α] (names : List α) (name : α) :
    Bool × List α :=
  if name ∈ names then (false, names) else (true, names ++ [name])

/-- A sequence of claim attempts against one namespace: returns
(number of successful claims, number of failed claims, final namespace). -/
def runClaims {α : Type} [DecidableEq α] : List α → List α → Nat × Nat × List α
  | [], ns => (0, 0, ns)
  | a :: rest, ns =>
      let r := add_if_unique ns a
      let rec' := runClaims rest r.2
      if r.1 then (rec'.1 + 1, rec'.2.1, rec'.2.2) else (rec'.1, rec'.2.1 + 1, rec'.2.2)

/-- `bang.util.poll_with_timeout`, with time made explicit: `probe` receives
the elapsed (slept) seconds at each invocation.  The loop state is the
current probe result, the accumulated `time_slept`, and the list of elapsed
times at which `probe` has been invoked so far.  Structural fuel stands in
for the unbounded `while`; `none` marks fuel exhaustion (proved unreachable
for positive intervals). -/
def pollAux {α : Type} (probe : Nat → Option α) (timeout_s wake_every_s : Nat) :
    Nat → Option α → Nat → List Nat → Option (Option α × List Nat)
  | 0, _, _, _ => none
  | _ + 1, some r, _, times => some (some r, times)
  | fuel + 1, none, time_slept, times =>
      if time_slept < timeout_s then
        let t := time_slept + wake_every_s
        pollAux probe timeout_s wake_every_s fuel (probe t) t (times ++ [t])
      else
        some (none, times)

/-- `poll_with_timeout(timeout_s, break_func, wake_every_s)`: calls the probe
immediately, then re-polls every `wake_every_s` until a non-`none` result or
`time_slept ≥ timeout_s`.  Returns the final probe result together with the
list of elapsed times at which the probe was invoked. -/
def poll_with_timeout {α : Type} (timeout_s : Nat) (probe : Nat → Option α)
    (wake_every_s : Nat) : Option (Option α × List Nat) :=
  pollAux probe timeout_s wake_every_s (timeout_s + 2) (probe 0) 0 [0]

/-- Python code-point comparison of strings, as a Boolean on char lists. -/
def charListLe : List Char → List Char → Bool
  | [], _ => true
  | _ :: _, [] => false
  | a :: as, b :: bs => if a = b then charListLe as bs else decide (a < b)

/-- Python `<=` on strings (lexicographic by code point). -/
def pyStrLe (a b : String) : Prop := charListLe a.toList b.toList = true

instance : DecidableRel pyStrLe := fun a b => by unfold pyStrLe; infer_instance

/-- Python `list.sort()` on strings: stable sort by code-point order. -/
def pySort (l : List String) : List String := List.insertionSort pyStrLe l

/-- Python `host.split('.')[0]`. -/
def shortName (h : String) : String :=
  String.mk (h.toList.takeWhile (fun c => c ≠ '.'))

/-- The one Python exception relevant to `Stack.add_host`: iterating `None`. -/
inductive PyErr where
  | typeError
deriving DecidableEq

/-- Result of `Stack.add_host`: the inventory state when the call returns or
raises, the caller's `group_names` list after the call (it is sorted in
place), and the raised error, if any. -/
structure AddHostResult where
  inv : SharedMap
  callerGroups : Option (List String)
  err : Option PyErr

/-- `bang.stack.Stack.add_host(host, group_names, host_vars)`:  sorts the
group names, injects ansible's magic variables into `host_vars`, deep-merges
them into `groups_and_vars` keyed by `host`, then appends `host` to each
group list — iterating the *original* `group_names` argument, which raises
`TypeError` when it was omitted (`None`), after the merge already happened.
`group_names if group_names else []` treats `None` and `[]` alike (Python
truthiness), so an empty caller list is replaced by a fresh one and is not
sorted in place (sorting an empty list is indistinguishable anyway). -/
def stack_add_host (inv : SharedMap) (host : String)
    (group_names : Option (List String)) (host_vars : Option (List (String × Val))) :
    AddHostResult :=
  let gnames := pySort (group_names.getD [])
  let hvars := host_vars.getD []
  let hvars := aset hvars "group_names" (Val.list (gnames.map Val.str))
  let hvars := aset hvars "inventory_hostname" (Val.str host)
  let hvars := aset hvars "inventory_hostname_short" (Val.str (shortName host))
  let inv' := inv.merge host hvars
  match group_names with
  | none => ⟨inv', none, some PyErr.typeError⟩
  | some _ => ⟨gnames.foldl (fun m g => m.append g host) inv', some gnames, none⟩

/-! ### Security-group rule-set diffing (`SecurityGroupRulesetDeployer`, `EC2SecGroup`) -/

/-- Normalized rule 4-tuple: (protocol, from-port, to-port, source). -/
abbrev RuleTuple := String × Nat × Nat × String

/-- How an EC2 grant was classified when the existing-rule map was built. -/
inductive GrantKind where
  | cidr (ip : String)
  | selfRef
  | group (gname : String)
deriving DecidableEq

/-- The backend-native handle stored as the value of the existing-rule map:
the kwargs later passed to `SecurityGroup.revoke` (the `target` group object
is left implicit). -/
structure RuleHandle where
  ip_protocol : String
  from_port : Nat
  to_port : Nat
  kind : GrantKind
deriving DecidableEq

/-- One grant of a raw boto rule. -/
structure EC2Grant where
  cidr_ip : Option String
  owner_id : Nat
  name : String
deriving DecidableEq

/-- One raw boto rule (ports already coerced with `int()`). -/
structure EC2RawRule where
  ip_protocol : String
  from_port : Nat
  to_port : Nat
  grants : List EC2Grant
deriving DecidableEq

/-- `bang.providers.aws.EC2SecGroup.__init__`: builds the mapping from
normalized rule tuple to native revoke-handle for all currently existing
rules of the group. -/
def ec2SecGroupRules (sgName : String) (ownerId : Nat) (raw : List EC2RawRule) :
    List (RuleTuple × RuleHandle) :=
  raw.foldl (fun rules rule =>
    rule.grants.foldl (fun rules g =>
      let ks :=
        match g.cidr_ip with
        | some c => (GrantKind.cidr c, c)
        | none =>
            if g.owner_id = ownerId ∧ g.name = sgName then (GrantKind.selfRef, sgName)
            else (GrantKind.group g.name, g.name)
      aset rules (rule.ip_protocol, rule.from_port, rule.to_port, ks.2)
        ⟨rule.ip_protocol, rule.from_port, rule.to_port, ks.1⟩) rules) []

/-- Loop of `SecurityGroupRulesetDeployer.find_existing` over the declared
rules: a declared tuple present in `current` is deleted from it (keep, no
action); an absent one is queued for creation.  Returns
(create_these_rules, remaining existing map). -/
def rulesetDiffAux : List RuleTuple → List (RuleTuple × RuleHandle) → List RuleTuple →
    List RuleTuple × List (RuleTuple × RuleHandle)
  | [], current, creates => (creates, current)
  | exp :: rest, current, creates =>
      if (alookup current exp).isSome then rulesetDiffAux rest (adel current exp) creates
      else rulesetDiffAux rest current (creates ++ [exp])

/-- `SecurityGroupRulesetDeployer.find_existing`: diff of declared tuples
against the existing-rule map; whatever remains in the map afterwards is
queued for deletion (its native handles). -/
def rulesetDiff (current : List (RuleTuple × RuleHandle)) (declared : List RuleTuple) :
    List RuleTuple × List RuleHandle :=
  let r := rulesetDiffAux declared current []
  (r.1, r.2.map (fun p => p.2))

/-! ### Concurrency orchestrator (`Stack._run`) -/

/-- Number of workers of a stage that terminated with a nonzero exit code
(a unit is `true` when it succeeds). -/
def stage_errors (stage : List Bool) : Nat :=
  (stage.filter (fun ok => !ok)).length

/-- The (stage index, unit index) pairs started for one stage. -/
def unitsFor (idx : Nat) (stage : List Bool) : List (Nat × Nat) :=
  (List.range stage.length).map (fun u => (idx, u))

/-- `Stack._run` over the remaining stages: starts every unit of the current
stage, joins them all, counts errors, and either raises
`BangError("Stage %d had %d errors.")` — modelled as `Except.error (stage
index, error count)` — or proceeds to the next stage.  Also accumulates the
trace of started units. -/
def runStagesAux : List (List Bool) → Nat → List (Nat × Nat) →
    List (Nat × Nat) × Except (Nat × Nat) Unit
  | [], _, started => (started, Except.ok ())
  | stage :: rest, idx, started =>
      let started' := started ++ unitsFor idx stage
      if stage_errors stage = 0 then runStagesAux rest (idx + 1) started'
      else (started', Except.error (idx, stage_errors stage))

/-- `Stack._run(action)` from the first stage: returns the trace of started
(stage, unit) pairs and the outcome. -/
def stackRun (stages : List (List Bool)) :
    List (Nat × Nat) × Except (Nat × Nat) Unit :=
  runStagesAux stages 0 []

/-! ### Deployer phase tables (`bang/deployers/cloud.py`) -/

/-- The named phase actions wired up in the deployer constructors. -/
inductive Phase where
  | find_existing
  | wait_for_running
  | create
  | add_to_inventory
  | register
  | apply_rule_changes
  | create_stack
  | find_def
  | define
  | configure_nodes
deriving DecidableEq

/-- The deployer classes of `bang/deployers/cloud.py`. -/
inductive DeployerClass where
  | sshKey
  | server
  | cloudManagerServer
  | securityGroup
  | securityGroupRuleset
  | bucket
  | database
  | loadBalancer
  | loadBalancerSecurityGroups
deriving DecidableEq

/-- `self.inventory_phases` as assigned in each constructor (the base
`Deployer` default is the empty list; `CloudManagerServerDeployer` and
`LoadBalancerSecurityGroupsDeployer` inherit from their parents). -/
def inventory_phases : DeployerClass → List Phase
  | DeployerClass.server => [Phase.find_existing, Phase.add_to_inventory]
  | DeployerClass.cloudManagerServer => [Phase.find_existing, Phase.add_to_inventory]
  | DeployerClass.database => [Phase.find_existing, Phase.add_to_inventory]
  | DeployerClass.loadBalancer => [Phase.find_existing, Phase.add_to_inventory]
  | _ => []

/-- The phase actions that issue create/provisioning calls on a consul
(creating servers, keys, groups, rules, stacks, definitions, or reconciling
load-balancer membership), as opposed to pure discovery/registration. -/
def provisioningPhase : Phase → Bool
  | Phase.create => true
  | Phase.register => true
  | Phase.apply_rule_changes => true
  | Phase.create_stack => true
  | Phase.define => true
  | Phase.configure_nodes => true
  | _ => false

/-! ### Stage planner (`bang/resources.py`, `bang/deployers/__init__.py`) -/

/-- `bang.resources.STAGES`: the static dependency table. -/
def STAGES : List (List String) :=
  [ [ "database_security_groups", "server_security_groups", "queues",
      "buckets", "ssh_pub_keys" ],
    [ "server_security_group_rules" ],
    [ "databases", "servers" ],
    [ "load_balancers" ],
    [ "database_security_group_rules", "_load_balancer_sec_groups" ] ]

/-- The keys of `bang.deployers.DEPLOYER_MAP`. -/
def DEPLOYER_MAP_KEYS : List String :=
  [ "servers", "server_security_groups", "server_security_group_rules",
    "buckets", "databases" ]

/-- The slice of one resource stanza the planner consults. -/
structure ResCfg where
  provider : String
  instance_count : Nat
deriving DecidableEq

/-- Static planning environment: which providers have credentials, and which
resource types each provider's `CONSUL_MAP` supports. -/
structure PlanEnv where
  creds : List String
  providers : List (String × List String)
deriving DecidableEq

/-- The exceptions the planning code can raise:  `creds[pname]` (KeyError),
`get_provider` for an unknown name, `DEPLOYER_MAP[res_type]` (KeyError). -/
inductive PlanErr where
  | credsKeyError (pname : String)
  | unknownProvider (pname : String)
  | deployerKeyError (res_type : String)
deriving DecidableEq

/-- Inner loop of `get_stage_deployers` over the configs of one resource
type: looks up credentials and provider, skips (with a warning) providers
that do not supply a consul for the type, then replicates the deployer
`instance_count` times.  A planned unit is a (resource type, provider)
pair. -/
def resTypeUnits (env : PlanEnv) (res_type : String) :
    List ResCfg → Except PlanErr (List (String × String))
  | [] => Except.ok []
  | cfg :: rest =>
      if cfg.provider ∈ env.creds then
        match alookup env.providers cfg.provider with
        | none => Except.error (PlanErr.unknownProvider cfg.provider)
        | some consulMap =>
            if res_type ∈ consulMap then
              if res_type ∈ DEPLOYER_MAP_KEYS then
                match resTypeUnits env res_type rest with
                | Except.ok us =>
                    Except.ok (List.replicate cfg.instance_count (res_type, cfg.provider) ++ us)
                | Except.error e => Except.error e
              else Except.error (PlanErr.deployerKeyError res_type)
            else resTypeUnits env res_type rest
      else Except.error (PlanErr.credsKeyError cfg.provider)

/-- `bang.deployers.get_stage_deployers(keys, stack)`: expands the stanzas of
one stage's resource types into planned units; a type with no config entry is
skipped (`if not res_configs: continue`). -/
def get_stage_deployers (env : PlanEnv) (config : List (String × List ResCfg)) :
    List String → Except PlanErr (List (String × String))
  | [] => Except.ok []
  | res_type :: keys =>
      match resTypeUnits env res_type ((alookup config res_type).getD []) with
      | Except.ok us =>
          match get_stage_deployers env config keys with
          | Except.ok more => Except.ok (us ++ more)
          | Except.error e => Except.error e
      | Except.error e => Except.error e

/-- `Stack.get_deployers`: one planned-unit list per entry of `STAGES`. -/
def planStagesAux (env : PlanEnv) (config : List (String × List ResCfg)) :
    List (List String) → Except PlanErr (List (List (String × String)))
  | [] => Except.ok []
  | ks :: rest =>
      match get_stage_deployers env config ks with
      | Except.ok units =>
          match planStagesAux env config rest with
          | Except.ok more => Except.ok (units :: more)
          | Except.error e => Except.error e
      | Except.error e => Except.error e

/-- Planning a whole stack: expand every stage of the static table. -/
def planStages (env : PlanEnv) (config : List (String × List ResCfg)) :
    Except PlanErr (List (List (String × String))) :=
  planStagesAux env config STAGES

/-! ### Server reconciliation (`ServerDeployer`) against a stub backend -/

/-- `ServerDeployer.find_existing`'s candidate loop, fuel-indexed: pop the
head candidate, try to claim its id in the shared namespace (success breaks
with the candidate), on failure break empty-handed once the namespace holds
at least `maxnames` names, otherwise cycle the candidate to the back of the
queue.  `none` marks fuel exhaustion (proved unreachable below for distinct
candidates and one extra cycle of fuel). -/
def findLoopFuel : Nat → Nat → List Nat → List Nat → Option (Option Nat × List Nat)
  | 0, _, _, _ => none
  | fuel + 1, maxnames, queue, ns =>
      match queue with
      | [] => some (none, ns)
      | i :: rest =>
          let r := add_if_unique ns i
          if r.1 then some (some i, r.2)
          else if maxnames ≤ ns.length then some (none, ns)
          else findLoopFuel fuel maxnames (rest ++ [i]) ns

/-- `ServerDeployer.find_existing`: runs the claim loop over the candidates
returned by `consul.find_servers` with `maxnames` equal to the number of
candidates.  Returns the claimed candidate (if any) and the updated
namespace. -/
def find_existing (candidates ns : List Nat) : Option Nat × List Nat :=
  match findLoopFuel (candidates.length + 1) candidates.length candidates ns with
  | some r => r
  | none => (none, ns)

/-- Consul calls a unit can issue against the stub backends (EC2 for
server units, S3 for bucket units). -/
inductive CCall where
  | findServers
  | findRunning (id : Nat)
  | createServer (id : Nat)
  | createBucket (name : String)
deriving DecidableEq

/-- The slice of one server stanza a `ServerDeployer` uses for inventory. -/
structure SrvCfg where
  name : String
  groups : List String
  hostvars : List (String × Val)

/-- Public address of a stub-backend server (one address per server,
deterministic in its id). -/
def hostOf (id : Nat) : String := "host-" ++ Nat.repr id

/-- Stub cloud backend: the running servers matching the stack's tags, and
the next fresh server id. -/
structure Backend where
  servers : List Nat
  nextId : Nat
deriving DecidableEq

/-- State threaded through the units of one orchestration run.  `snapshot`
is the backend server list at stage start (every worker is forked then, so
its `find_servers` sees that state); `created` are the servers created by
this run's units; `ns` is the shared namespace for this server name. -/
structure RunSt where
  snapshot : List Nat
  created : List Nat
  nextId : Nat
  ns : List Nat
  inv : SharedMap
  calls : List CCall

/-- `ServerDeployer.add_to_inventory`: a no-op without `server_attrs`,
otherwise `stack.add_host` on the server's public address with the unit's
groups and hostvars. -/
def addToInventoryPhase (cfg : SrvCfg) (sa : Option Nat) (st : RunSt) : RunSt :=
  match sa with
  | none => st
  | some id =>
      { st with inv := (stack_add_host st.inv (hostOf id) (some cfg.groups)
          (some cfg.hostvars)).inv }

/-- One `ServerDeployer` running its `deploy` phase list:
find-existing, then wait-for-running when found (EC2's `find_running`
returns the attributes unchanged), else create, then add-to-inventory. -/
def serverUnitDeploy (cfg : SrvCfg) (st : RunSt) : RunSt :=
  let fr := find_existing st.snapshot st.ns
  let st1 := { st with ns := fr.2, calls := st.calls ++ [CCall.findServers] }
  match fr.1 with
  | some id =>
      let st2 := { st1 with calls := st1.calls ++ [CCall.findRunning id] }
      addToInventoryPhase cfg (some id) st2
  | none =>
      let id := st.nextId
      let st2 := { st1 with
                   created := st1.created ++ [id]
                   nextId := id + 1
                   calls := st1.calls ++ [CCall.createServer id] }
      addToInventoryPhase cfg (some id) st2

/-- One `ServerDeployer` running its `inventory_phases`:
find-existing then add-to-inventory (which is a no-op when nothing was
found); never a create. -/
def serverUnitInventory (cfg : SrvCfg) (st : RunSt) : RunSt :=
  let fr := find_existing st.snapshot st.ns
  let st1 := { st with ns := fr.2, calls := st.calls ++ [CCall.findServers] }
  addToInventoryPhase cfg fr.1 st1

/-- Runs `n` cloned units in sequence (one legal interleaving of the stage's
workers; all cross-unit communication goes through the shared namespace and
inventory in `RunSt`). -/
def runUnits (f : SrvCfg → RunSt → RunSt) (cfg : SrvCfg) : Nat → RunSt → RunSt
  | 0, st => st
  | n + 1, st => runUnits f cfg n (f cfg st)

/-- Stage start for a fresh `Stack` object: empty namespace, empty shared
inventory, snapshot taken from the backend. -/
def initSt (b : Backend) : RunSt :=
  ⟨b.servers, [], b.nextId, [], SharedMap.empty, []⟩

/-- Result of one entry-point invocation. -/
structure DeployResult where
  backend : Backend
  inv : SharedMap
  calls : List CCall
  have_inventory : Bool

/-- The server stage of one `Stack._run('deploy')` pass: the `n` units
expanded from a `servers` stanza with `instance_count = n` (stage 2 of
`STAGES`) run against the EC2 stub backend.  The resulting backend holds
the snapshot servers plus everything created.  `stackDeployRun` composes
this with the bucket stage to embed the whole `Stack.deploy()`. -/
def deployRun (cfg : SrvCfg) (n : Nat) (b : Backend) : DeployResult :=
  let st := runUnits serverUnitDeploy cfg n (initSt b)
  ⟨⟨b.servers ++ st.created, st.nextId⟩, st.inv, st.calls, true⟩

/-- `Stack.gather_inventory()` for the same stack: runs only the
`inventory_phases` of each unit, then sets `have_inventory`.  Units of the
other deployer classes wired for this stack shape (buckets) have an empty
`inventory_phases` list and contribute nothing. -/
def gatherInventoryRun (cfg : SrvCfg) (n : Nat) (b : Backend) : DeployResult :=
  let st := runUnits serverUnitInventory cfg n (initSt b)
  ⟨⟨b.servers ++ st.created, st.nextId⟩, st.inv, st.calls, true⟩

/-- Number of `create_server` calls in a trace. -/
def countCreates (calls : List CCall) : Nat :=
  (calls.filter (fun c => match c with | CCall.createServer _ => true | _ => false)).length

/-- All (stage, unit) pairs of a list of stages, the first stage carrying
index `base` (the units `Stack._run` starts for those stages). -/
def allUnits : List (List Bool) → Nat → List (Nat × Nat)
  | [], _ => []
  | st :: rest, base => unitsFor base st ++ allUnits rest (base + 1)

/-- The inventory effect of one server unit registering server `id`:
`stack.add_host` on its public address with the unit's groups and
hostvars. -/
def invAddHost (cfg : SrvCfg) (m : SharedMap) (id : Nat) : SharedMap :=
  (stack_add_host m (hostOf id) (some cfg.groups) (some cfg.hostvars)).inv

/-- The shared inventory after the servers `ids` are registered in order. -/
def invOfIds (cfg : SrvCfg) (m : SharedMap) (ids : List Nat) : SharedMap :=
  ids.foldl (invAddHost cfg) m

/-- The consul-call trace of a deploy run whose units claimed `claimed` and
then created `created`. -/
def deployCallsOf (claimed created : List Nat) : List CCall :=
  (claimed.map (fun i => [CCall.findServers, CCall.findRunning i])).flatten ++
  (created.map (fun i => [CCall.findServers, CCall.createServer i])).flatten

/-- Stub S3 backend: the existing bucket names.  Bucket names are unique
and re-creating an existing bucket is accepted and changes nothing (S3
semantics), so `create_bucket` only appends absent names. -/
structure S3State where
  buckets : List String
deriving DecidableEq

/-- `S3.create_bucket` against the stub backend. -/
def s3CreateBucket (st : S3State) (name : String) : S3State :=
  if name ∈ st.buckets then st else ⟨st.buckets ++ [name]⟩

/-- A stack definition as `Stack.deploy()` sees it when the configuration
declares a `servers` stanza (one spec, `instance_count` clones) and a
`buckets` stanza: the stack name, the server spec, the clone count, and the
bucket names. -/
structure StackCfg where
  stackName : String
  server : SrvCfg
  instance_count : Nat
  buckets : List String

/-- The bucket stage of one `Stack._run('deploy')` pass (stage 0 of
`STAGES`): each `BucketDeployer` unit's phase list is the single
unconditional phase `(True, self.create)`, which issues
`create_bucket("<stack>-<name>")` on every run. -/
def bucketStageRun (stackName : String) : List String → S3State → S3State × List CCall
  | [], s3 => (s3, [])
  | bn :: rest, s3 =>
      let r := bucketStageRun stackName rest (s3CreateBucket s3 (stackName ++ "-" ++ bn))
      (r.1, CCall.createBucket (stackName ++ "-" ++ bn) :: r.2)

/-- Result of one `Stack.deploy()` invocation over a servers+buckets
stack. -/
structure StackDeployResult where
  backend : Backend
  s3 : S3State
  inv : SharedMap
  calls : List CCall
  have_inventory : Bool

/-- `Stack.deploy()` for a stack definition declaring `servers` and
`buckets` stanzas: stage 0 runs the bucket units (unconditional creates
against S3), the stages of absent stanzas contribute no units, stage 2 runs
the server clones against EC2; then `have_inventory` is set. -/
def stackDeployRun (cfg : StackCfg) (b : Backend) (s3 : S3State) : StackDeployResult :=
  let bs := bucketStageRun cfg.stackName cfg.buckets s3
  let r := deployRun cfg.server cfg.instance_count b
  ⟨r.backend, bs.1, r.inv, bs.2 ++ r.calls, true⟩

/-- Create calls of any resource kind (server or bucket). -/
def isCreateCall : CCall → Bool
  | CCall.createServer _ => true
  | CCall.createBucket _ => true
  | _ => false

/-- Number of create calls of any kind in a trace. -/
def countAllCreates (calls : List CCall) : Nat :=
  (calls.filter isCreateCall).length

/-! ## Helper lemmas on association lists -/

theorem alookup_aset_self {κ α : Type} [DecidableEq κ] (d : List (κ × α)) (k : κ) (v : α) :
    alookup (aset d k v) k = some v := by
  induction d with
  | nil => simp [aset, alookup]
  | cons hd tl ih =>
      obtain ⟨k', v'⟩ := hd
      by_cases h : k' = k
      · simp [aset, h, alookup]
      · simp [aset, h, alookup, ih]

theorem alookup_aset_ne {κ α : Type} [DecidableEq κ] (d : List (κ × α)) (k k' : κ) (v : α)
    (h : k' ≠ k) : alookup (aset d k v) k' = alookup d k' := by
  induction d with
  | nil => simp [aset, alookup, Ne.symm h]
  | cons hd tl ih =>
      obtain ⟨k₀, v₀⟩ := hd
      by_cases h0 : k₀ = k
      · subst h0
        simp [aset, alookup, Ne.symm h]
      · simp only [aset, if_neg h0, alookup]
        by_cases h1 : k₀ = k'
        · simp [h1]
        · simp [h1, ih]

theorem alookup_adel_ne {κ α : Type} [DecidableEq κ] (d : List (κ × α)) (k k' : κ)
    (h : k' ≠ k) : alookup (adel d k) k' = alookup d k' := by
  induction d with
  | nil => simp [adel]
  | cons hd tl ih =>
      obtain ⟨k₀, v₀⟩ := hd
      by_cases h0 : k₀ = k
      · subst h0
        simp [adel, alookup, Ne.symm h]
      · simp only [adel, if_neg h0, alookup]
        by_cases h1 : k₀ = k'
        · simp [h1]
        · simp [h1, ih]

theorem adel_sublist {κ α : Type} [DecidableEq κ] (d : List (κ × α)) (k : κ) :
    (adel d k).Sublist d := by
  induction d with
  | nil => simp [adel]
  | cons hd tl ih =>
      obtain ⟨k₀, v₀⟩ := hd
      by_cases h0 : k₀ = k
      · simp [adel, h0]
      · simpa [adel, h0] using ih.cons₂ (k₀, v₀)

theorem alookup_isSome_iff {κ α : Type} [DecidableEq κ] (d : List (κ × α)) (k : κ) :
    (alookup d k).isSome = true ↔ k ∈ d.map Prod.fst := by
  induction d with
  | nil => simp [alookup]
  | cons hd tl ih =>
      obtain ⟨k₀, v₀⟩ := hd
      by_cases h0 : k₀ = k
      · simp [alookup, h0]
      · simp [alookup, h0, ih, Ne.symm h0]

theorem alookup_filter_keys {κ α : Type} [DecidableEq κ] (d : List (κ × α))
    (pred : κ → Bool) (k : κ) (h : pred k = true) :
    alookup (d.filter (fun p => pred p.1)) k = alookup d k := by
  induction d with
  | nil => simp
  | cons hd tl ih =>
      obtain ⟨k₀, v₀⟩ := hd
      by_cases h0 : k₀ = k
      · subst h0
        simp [List.filter_cons, h, alookup]
      · by_cases hp : pred k₀
        · simp [List.filter_cons, hp, alookup, h0, ih]
        · simp [List.filter_cons, hp, alookup, h0, ih]

/-! ## C3: namespace claim semantics -/

theorem runClaims_cons_mem {α : Type} [DecidableEq α] {a : α} {ns : List α}
    (rest : List α) (h : a ∈ ns) :
    runClaims (a :: rest) ns =
      ((runClaims rest ns).1, (runClaims rest ns).2.1 + 1, (runClaims rest ns).2.2) := by
  simp [runClaims, add_if_unique, h]

theorem runClaims_cons_not_mem {α : Type} [DecidableEq α] {a : α} {ns : List α}
    (rest : List α) (h : a ∉ ns) :
    runClaims (a :: rest) ns =
      ((runClaims rest (ns ++ [a])).1 + 1, (runClaims rest (ns ++ [a])).2.1,
        (runClaims rest (ns ++ [a])).2.2) := by
  simp [runClaims, add_if_unique, h]

theorem runClaims_spec {α : Type} [DecidableEq α] (attempts : List α) :
    ∀ ns : List α, ns.Nodup →
      ((runClaims attempts ns).2.2).Nodup ∧
      ((runClaims attempts ns).2.2).toFinset = ns.toFinset ∪ attempts.toFinset ∧
      (runClaims attempts ns).1 = (attempts.toFinset \ ns.toFinset).card ∧
      (runClaims attempts ns).1 + (runClaims attempts ns).2.1 = attempts.length := by
  induction attempts with
  | nil =>
      intro ns hns
      simp [runClaims, hns]
  | cons a rest ih =>
      intro ns hns
      by_cases hmem : a ∈ ns
      · have hnsF : a ∈ ns.toFinset := by simpa using hmem
        have h := ih ns hns
        rw [runClaims_cons_mem rest hmem]
        dsimp only
        refine ⟨h.1, ?_, ?_, ?_⟩
        · rw [h.2.1]
          ext x
          simp only [Finset.mem_union, List.mem_toFinset, List.toFinset_cons,
            Finset.mem_insert]
          constructor
          · rintro (hx | hx)
            · exact Or.inl hx
            · exact Or.inr (Or.inr hx)
          · rintro (hx | hx | hx)
            · exact Or.inl hx
            · exact Or.inl (by simpa [hx] using hmem)
            · exact Or.inr hx
        · rw [h.2.2.1]
          rw [List.toFinset_cons, Finset.insert_sdiff_of_mem _ hnsF]
        · have := h.2.2.2
          simp only [List.length_cons]
          omega
      · have hns' : (ns ++ [a]).Nodup := by
          rw [List.nodup_append]
          refine ⟨hns, List.nodup_singleton a, ?_⟩
          intro x hx hx'
          rw [List.mem_singleton] at hx'
          subst hx'
          exact hmem hx
        have h := ih (ns ++ [a]) hns'
        have hnsF : a ∉ ns.toFinset := by simpa using hmem
        rw [runClaims_cons_not_mem rest hmem]
        dsimp only
        refine ⟨h.1, ?_, ?_, ?_⟩
        · rw [h.2.1]
          ext x
          simp only [Finset.mem_union, List.mem_toFinset, List.mem_append,
            List.mem_singleton, List.toFinset_cons, Finset.mem_insert]
          tauto
        · rw [h.2.2.1]
          have hset : (ns ++ [a]).toFinset = insert a ns.toFinset := by
            ext x
            simp only [List.mem_toFinset, List.mem_append, List.mem_singleton,
              Finset.mem_insert]
            tauto
          rw [hset, List.toFinset_cons]
          rw [Finset.sdiff_insert, Finset.insert_sdiff_of_not_mem _ hnsF]
          by_cases hX : a ∈ rest.toFinset \ ns.toFinset
          · rw [Finset.insert_eq_self.mpr hX]
            exact Finset.card_erase_add_one hX
          · rw [Finset.erase_eq_self.mpr hX, Finset.card_insert_of_not_mem hX]
        · have := h.2.2.2
          simp only [List.length_cons]
          omega

/-- C3: On one shared namespace, `add_if_unique(id)` returns `true` and
records `id` exactly when `id` is not already recorded, and returns `false`
(leaving the namespace unchanged) otherwise; consequently, for `N` claim
attempts starting from an empty namespace, over `M ≤ N` distinct ids,
exactly `M` claims succeed and `N − M` fail, and no id is ever recorded
twice. -/
theorem namespace_claim_unique {α : Type} [DecidableEq α] (ns : List α) (id : α)
    (attempts : List α) :
    (add_if_unique ns id = (true, ns ++ [id]) ↔ id ∉ ns) ∧
    (add_if_unique ns id = (false, ns) ↔ id ∈ ns) ∧
    (runClaims attempts []).1 = attempts.toFinset.card ∧
    attempts.toFinset.card ≤ attempts.length ∧
    (runClaims attempts []).2.1 = attempts.length - attempts.toFinset.card ∧
    ((runClaims attempts []).2.2).Nodup := by
  have h := runClaims_spec attempts [] (by simp)
  have hM : (runClaims attempts []).1 = attempts.toFinset.card := by
    rw [h.2.2.1]; simp
  refine ⟨?_, ?_, hM, List.toFinset_card_le attempts, ?_, h.1⟩
  · constructor
    · intro he hmem
      rw [add_if_unique, if_pos hmem] at he
      simp at he
    · intro hmem
      rw [add_if_unique, if_neg hmem]
  · constructor
    · intro he
      by_contra hmem
      rw [add_if_unique, if_neg hmem] at he
      simp at he
    · intro hmem
      rw [add_if_unique, if_pos hmem]
  · have := h.2.2.2
    omega

/-! ## C5: deep-merge semantics -/

theorem mergeKey_eq_aset (base : List (String × Val)) (ki : String) (vi : Val) :
    ∃ w, mergeKey base ki vi = aset base ki w := by
  unfold mergeKey
  split
  · exact ⟨_, rfl⟩
  · exact ⟨_, rfl⟩

theorem alookup_mergeKey_ne (base : List (String × Val)) (ki : String) (vi : Val)
    (k : String) (h : k ≠ ki) : alookup (mergeKey base ki vi) k = alookup base k := by
  obtain ⟨w, hw⟩ := mergeKey_eq_aset base ki vi
  rw [hw]
  exact alookup_aset_ne base ki k w h

theorem alookup_mergeKey_self (base : List (String × Val)) (ki : String) (vi : Val) :
    alookup (mergeKey base ki vi) ki =
      match alookup base ki, vi with
      | some (Val.dict bd), Val.dict vid => some (Val.dict (deep_merge_dicts bd vid))
      | _, _ => some vi := by
  unfold mergeKey
  split
  · rw [alookup_aset_self]
  · rw [alookup_aset_self]

theorem alookup_deep_merge_not_mem (incoming : List (String × Val)) :
    ∀ base k, alookup incoming k = none →
      alookup (deep_merge_dicts base incoming) k = alookup base k := by
  induction incoming with
  | nil =>
      intro base k _
      rw [deep_merge_dicts]
  | cons hd rest ih =>
      obtain ⟨ki, vi⟩ := hd
      intro base k hk
      rw [alookup] at hk
      by_cases hki : ki = k
      · simp [hki] at hk
      · rw [if_neg hki] at hk
        rw [deep_merge_dicts, ih (mergeKey base ki vi) k hk]
        exact alookup_mergeKey_ne base ki vi k (Ne.symm hki)

theorem alookup_deep_merge (incoming : List (String × Val)) :
    ∀ base k, (incoming.map Prod.fst).Nodup →
      alookup (deep_merge_dicts base incoming) k =
        match alookup incoming k, alookup base k with
        | some (Val.dict vid), some (Val.dict bd) =>
            some (Val.dict (deep_merge_dicts bd vid))
        | some vi, _ => some vi
        | none, o => o := by
  induction incoming with
  | nil =>
      intro base k _
      rw [deep_merge_dicts]
      rcases alookup base k with _ | bv
      · rfl
      · rfl
  | cons hd rest ih =>
      obtain ⟨ki, vi⟩ := hd
      intro base k hN
      rw [List.map_cons, List.nodup_cons] at hN
      obtain ⟨hki, hNr⟩ := hN
      rw [deep_merge_dicts]
      rcases hrest : alookup rest k with _ | vr
      · -- k is not a key of rest
        rw [alookup_deep_merge_not_mem rest (mergeKey base ki vi) k hrest]
        by_cases hk : ki = k
        · subst hk
          rw [alookup_mergeKey_self]
          simp only [alookup, if_pos rfl]
          rcases hb : alookup base ki with _ | bv
          · cases vi <;> rfl
          · cases bv <;> cases vi <;> rfl
        · rw [alookup_mergeKey_ne base ki vi k (Ne.symm hk)]
          simp only [alookup, if_neg hk, hrest]
      · -- k is a key of rest, hence k ≠ ki
        have hk : ki ≠ k := by
          intro hh
          subst hh
          have : ki ∈ rest.map Prod.fst := by
            rw [← alookup_isSome_iff]
            simp [hrest]
          exact hki this
        rw [ih (mergeKey base ki vi) k hNr]
        rw [alookup_mergeKey_ne base ki vi k (Ne.symm hk)]
        simp only [alookup, if_neg hk]

/-- C5: `SharedInventory` merging is a deep, additive merge: per key, nested
maps are merged recursively and any other (scalar/array) value is
overwritten by the most recent writer; in particular merging
`{"a": {"x": 1}}` then `{"a": {"y": 2}}` into the same host yields
`{"a": {"x": 1, "y": 2}}`, and merging `{"a": 1}` then `{"a": 2}` yields
`{"a": 2}`. -/
theorem sharedmap_deep_merge_semantics :
    (∀ (incoming base : List (String × Val)) (k : String),
      (incoming.map Prod.fst).Nodup →
        alookup (deep_merge_dicts base incoming) k =
          match alookup incoming k, alookup base k with
          | some (Val.dict vid), some (Val.dict bd) =>
              some (Val.dict (deep_merge_dicts bd vid))
          | some vi, _ => some vi
          | none, o => o) ∧
    ((SharedMap.empty.merge "h" [("a", Val.dict [("x", Val.nat 1)])]).merge "h"
        [("a", Val.dict [("y", Val.nat 2)])]).dicts =
      [("h", [("a", Val.dict [("x", Val.nat 1), ("y", Val.nat 2)])])] ∧
    ((SharedMap.empty.merge "h" [("a", Val.nat 1)]).merge "h"
        [("a", Val.nat 2)]).dicts =
      [("h", [("a", Val.nat 2)])] := by
  refine ⟨fun incoming base k h => alookup_deep_merge incoming base k h, ?_, ?_⟩
  · simp [SharedMap.merge, SharedMap.empty, alookup, aset, deep_merge_dicts, mergeKey]
  · simp [SharedMap.merge, SharedMap.empty, alookup, aset, deep_merge_dicts, mergeKey]

/-- Witness for C5 at concrete inputs: merging `{"a": 1, "b": 7}` with
incoming `{"a": 2}` overwrites the scalar leaf `a` and leaves `b` alone. -/
theorem sharedmap_deep_merge_semantics_witness :
    alookup (deep_merge_dicts [("a", Val.nat 1), ("b", Val.nat 7)] [("a", Val.nat 2)]) "a" =
      some (Val.nat 2) ∧
    alookup (deep_merge_dicts [("a", Val.nat 1), ("b", Val.nat 7)] [("a", Val.nat 2)]) "b" =
      some (Val.nat 7) :=
  ⟨sharedmap_deep_merge_semantics.1 [("a", Val.nat 2)]
      [("a", Val.nat 1), ("b", Val.nat 7)] "a" (by simp),
   sharedmap_deep_merge_semantics.1 [("a", Val.nat 2)]
      [("a", Val.nat 1), ("b", Val.nat 7)] "b" (by simp)⟩

/-! ## C6: polling/timeout primitive -/

theorem pollAux_isSome {α : Type} (probe : Nat → Option α) (t i : Nat) (hi : 1 ≤ i) :
    ∀ fuel slept res times, 1 ≤ fuel → t < slept + fuel →
      (pollAux probe t i fuel res slept times).isSome := by
  intro fuel
  induction fuel with
  | zero => intro slept res times h1 _; omega
  | succ f ih =>
      intro slept res times _ hbound
      rcases res with _ | r
      · rw [pollAux]
        by_cases hs : slept < t
        · rw [if_pos hs]
          have hf : 1 ≤ f := by omega
          exact ih (slept + i) (probe (slept + i)) (times ++ [slept + i]) hf (by omega)
        · rw [if_neg hs]
          rfl
      · rfl

/-- C6 counterexample: with a probe that never returns non-nil,
`poll_with_timeout(5, probe, 2)` invokes the probe **4** times, at elapsed
times 0, 2, 4 and 6 — not 3 times at 0, 2, 4 as claimed: the loop condition
`time_slept < timeout_s` admits one more probe after the sleep that brings
`time_slept` to 6. -/
theorem poll_with_timeout_counterexample :
    poll_with_timeout 5 (fun _ => (none : Option Nat)) 2 = some (none, [0, 2, 4, 6]) ∧
    [0, 2, 4, 6].length = 4 ∧ [0, 2, 4, 6] ≠ [0, 2, 4] := by
  refine ⟨by decide, rfl, by decide⟩

/-- C6 amended: `poll_with_timeout(timeout_s, probe, interval_s)` calls the
probe immediately and returns a non-nil result immediately; otherwise it
sleeps `interval_s`, accumulates elapsed time and re-probes while the
elapsed time is below `timeout_s`, and for any positive interval the loop
terminates.  For a probe that never returns non-nil,
`poll_with_timeout(5, probe, 2)` returns nil after exactly 4 probe
invocations (at t = 0, 2, 4 and 6), having slept 6 seconds — still before
t = 7. -/
theorem poll_with_timeout_behaviour :
    (∀ (α : Type) (probe : Nat → Option α) (r : α) (t i : Nat), probe 0 = some r →
      poll_with_timeout t probe i = some (some r, [0])) ∧
    (∀ (α : Type) (probe : Nat → Option α) (t i : Nat), 1 ≤ i →
      (poll_with_timeout t probe i).isSome) ∧
    poll_with_timeout 5 (fun _ => (none : Option Nat)) 2 = some (none, [0, 2, 4, 6]) ∧
    6 < 7 := by
  refine ⟨?_, ?_, by decide, by omega⟩
  · intro α probe r t i h
    rw [poll_with_timeout, h]
    rfl
  · intro α probe t i hi
    exact pollAux_isSome probe t i hi (t + 2) 0 (probe 0) [0] (by omega) (by omega)

/-- Witness for C6's amended behaviour at concrete inputs: a probe that
succeeds immediately returns at once with one invocation, and polling always
returns for a positive interval. -/
theorem poll_with_timeout_behaviour_witness :
    poll_with_timeout 9 (fun _ => some 42) 3 = some (some 42, [0]) ∧
    (poll_with_timeout 9 (fun _ => (none : Option Nat)) 3).isSome :=
  ⟨poll_with_timeout_behaviour.1 Nat (fun _ => some 42) 42 9 3 rfl,
   poll_with_timeout_behaviour.2.1 Nat (fun _ => none) 9 3 (by omega)⟩

/-! ## C4: security-group rule-set diffing -/

theorem filter_adel_not_mem (current : List (RuleTuple × RuleHandle))
    (exp : RuleTuple) (rest : List RuleTuple) (hN : (current.map Prod.fst).Nodup) :
    (adel current exp).filter (fun p => decide (p.1 ∉ rest)) =
      current.filter (fun p => decide (p.1 ∉ exp :: rest)) := by
  induction current with
  | nil => rfl
  | cons hd tl ih =>
      obtain ⟨k, v⟩ := hd
      rw [List.map_cons, List.nodup_cons] at hN
      obtain ⟨hk, hNt⟩ := hN
      by_cases he : k = exp
      · subst he
        rw [adel, if_pos rfl]
        rw [List.filter_cons, if_neg (by simp)]
        apply List.filter_congr
        intro p hp
        have hpk : p.1 ≠ k := by
          intro hh
          have hmm : p.1 ∈ tl.map Prod.fst := List.mem_map_of_mem Prod.fst hp
          rw [hh] at hmm
          exact hk hmm
        simp [hpk]
      · rw [adel, if_neg he]
        rw [List.filter_cons, List.filter_cons]
        have hiff : (decide (k ∉ rest)) = (decide (k ∉ exp :: rest)) := by
          simp only [List.mem_cons, not_or, decide_eq_true_eq]
          by_cases hkr : k ∈ rest
          · simp [hkr]
          · simp [hkr, he]
        rw [← hiff, ih hNt]

theorem rulesetDiffAux_spec :
    ∀ (declared : List RuleTuple) (current : List (RuleTuple × RuleHandle))
      (creates : List RuleTuple),
      (current.map Prod.fst).Nodup → declared.Nodup →
      rulesetDiffAux declared current creates =
        (creates ++ declared.filter (fun t => (alookup current t).isNone),
         current.filter (fun p => decide (p.1 ∉ declared))) := by
  intro declared
  induction declared with
  | nil =>
      intro current creates _ _
      simp [rulesetDiffAux]
  | cons exp rest ih =>
      intro current creates hNc hNd
      rw [List.nodup_cons] at hNd
      obtain ⟨hexp, hNr⟩ := hNd
      by_cases hpres : (alookup current exp).isSome = true
      · rw [rulesetDiffAux, if_pos hpres]
        have hNadel : ((adel current exp).map Prod.fst).Nodup :=
          hNc.sublist ((adel_sublist current exp).map Prod.fst)
        rw [ih (adel current exp) creates hNadel hNr]
        rw [Prod.mk.injEq]
        refine ⟨?_, ?_⟩
        · rw [List.filter_cons]
          obtain ⟨v, hv⟩ := Option.isSome_iff_exists.mp hpres
          rw [hv, if_neg (by simp)]
          congr 1
          apply List.filter_congr
          intro t ht
          have htne : t ≠ exp := fun hh => hexp (hh ▸ ht)
          rw [alookup_adel_ne current exp t htne]
        · exact filter_adel_not_mem current exp rest hNc
      · rw [rulesetDiffAux, if_neg hpres]
        rw [ih current (creates ++ [exp]) hNc hNr]
        have hnone : (alookup current exp).isNone = true := by
          rcases h : alookup current exp with _ | v
          · rfl
          · rw [h] at hpres; simp at hpres
        rw [Prod.mk.injEq]
        refine ⟨?_, ?_⟩
        · rw [List.filter_cons, if_pos (by simpa using hnone), List.append_assoc]
          rfl
        · apply List.filter_congr
          intro p hp
          have hpk : p.1 ≠ exp := by
            intro hh
            have : exp ∈ current.map Prod.fst := hh ▸ List.mem_map_of_mem Prod.fst hp
            rw [← alookup_isSome_iff] at this
            exact hpres this
          simp [hpk]

/-- C4: the rule-set reconciler computes a pure set difference on the
normalized (protocol, from-port, to-port, source) tuples: each declared
tuple present in the existing-rule map is dropped from it (keep, no action),
each declared tuple absent is queued for creation, and the handles remaining
in the map are queued for deletion.  At the claimed concrete inputs —
existing rules (tcp,80,80,0.0.0.0/0) and (tcp,22,22,10.0.0.0/8), declared
rules (tcp,80,80,0.0.0.0/0) and (tcp,443,443,0.0.0.0/0) — the creates are
exactly {(tcp,443,443,0.0.0.0/0)} and the deletes exactly {the native
handle of (tcp,22,22,10.0.0.0/8)}. -/
theorem ruleset_diff_set_difference :
    (∀ (current : List (RuleTuple × RuleHandle)) (declared : List RuleTuple),
      (current.map Prod.fst).Nodup → declared.Nodup →
      rulesetDiff current declared =
        (declared.filter (fun t => (alookup current t).isNone),
         (current.filter (fun p => decide (p.1 ∉ declared))).map (fun p => p.2))) ∧
    rulesetDiff
        (ec2SecGroupRules "web" 1
          [ ⟨"tcp", 80, 80, [⟨some "0.0.0.0/0", 1, "x"⟩]⟩,
            ⟨"tcp", 22, 22, [⟨some "10.0.0.0/8", 1, "x"⟩]⟩ ])
        [("tcp", 80, 80, "0.0.0.0/0"), ("tcp", 443, 443, "0.0.0.0/0")] =
      ([("tcp", 443, 443, "0.0.0.0/0")],
       [⟨"tcp", 22, 22, GrantKind.cidr "10.0.0.0/8"⟩]) := by
  constructor
  · intro current declared hNc hNd
    rw [rulesetDiff, rulesetDiffAux_spec declared current [] hNc hNd]
    rfl
  · decide

/-- Witness for C4's general diff characterization at concrete inputs. -/
theorem ruleset_diff_set_difference_witness :
    rulesetDiff [(("tcp", 80, 80, "0.0.0.0/0"), ⟨"tcp", 80, 80, GrantKind.cidr "0.0.0.0/0"⟩)]
        [("tcp", 443, 443, "0.0.0.0/0")] =
      ([("tcp", 443, 443, "0.0.0.0/0")],
       [⟨"tcp", 80, 80, GrantKind.cidr "0.0.0.0/0"⟩]) := by
  rw [ruleset_diff_set_difference.1
    [(("tcp", 80, 80, "0.0.0.0/0"), ⟨"tcp", 80, 80, GrantKind.cidr "0.0.0.0/0"⟩)]
    [("tcp", 443, 443, "0.0.0.0/0")] (by decide) (by decide)]
  decide

/-! ## C1: stage failure halts the pipeline -/

theorem mem_allUnits (stages : List (List Bool)) :
    ∀ base su, su ∈ allUnits stages base ↔
      ∃ j stj, stages.get? j = some stj ∧ su.1 = base + j ∧ su.2 < stj.length := by
  induction stages with
  | nil =>
      intro base su
      simp [allUnits]
  | cons st rest ih =>
      intro base su
      rw [allUnits, List.mem_append, ih (base + 1) su]
      constructor
      · rintro (hu | ⟨j, stj, hj, h1, h2⟩)
        · obtain ⟨u, hu1, hu2⟩ := List.mem_map.mp hu
          refine ⟨0, st, rfl, ?_, ?_⟩
          · rw [← hu2]; omega
          · rw [← hu2]
            simpa [List.mem_range] using hu1
        · exact ⟨j + 1, stj, by simpa using hj, by omega, h2⟩
      · rintro ⟨j, stj, hj, h1, h2⟩
        rcases j with _ | j
        · left
          rw [List.get?] at hj
          cases hj
          rcases su with ⟨a, u⟩
          simp only at h1 h2
          apply List.mem_map.mpr
          exact ⟨u, List.mem_range.mpr h2, by simp [h1]⟩
        · right
          exact ⟨j, stj, by simpa using hj, by omega, h2⟩

theorem runStagesAux_all_clean (stages : List (List Bool)) :
    ∀ base acc, (∀ st ∈ stages, stage_errors st = 0) →
      runStagesAux stages base acc = (acc ++ allUnits stages base, Except.ok ()) := by
  induction stages with
  | nil => intro base acc _; simp [runStagesAux, allUnits]
  | cons st rest ih =>
      intro base acc hclean
      rw [runStagesAux, if_pos (hclean st (List.mem_cons_self st rest))]
      rw [ih (base + 1) (acc ++ unitsFor base st) (fun s hs => hclean s (List.mem_cons_of_mem st hs))]
      rw [allUnits, List.append_assoc]

theorem runStagesAux_fail (K : Nat) :
    ∀ (stages : List (List Bool)) (stK : List Bool) (base : Nat) (acc : List (Nat × Nat)),
      stages.get? K = some stK → stage_errors stK ≠ 0 →
      (∀ j stj, j < K → stages.get? j = some stj → stage_errors stj = 0) →
      runStagesAux stages base acc =
        (acc ++ allUnits (stages.take (K + 1)) base,
         Except.error (base + K, stage_errors stK)) := by
  induction K with
  | zero =>
      intro stages stK base acc hK hfail _
      rcases stages with _ | ⟨st, rest⟩
      · simp at hK
      · rw [List.get?] at hK
        cases hK
        rw [runStagesAux, if_neg hfail]
        simp [allUnits]
  | succ K ih =>
      intro stages stK base acc hK hfail hclean
      rcases stages with _ | ⟨st0, rest⟩
      · simp at hK
      · have h0 : stage_errors st0 = 0 := hclean 0 st0 (by omega) rfl
        rw [runStagesAux, if_pos h0]
        rw [ih rest stK (base + 1) (acc ++ unitsFor base st0) (by simpa using hK) hfail
          (fun j stj hj hjs => hclean (j + 1) stj (by omega) (by simpa using hjs))]
        rw [List.take_succ_cons, allUnits, List.append_assoc]
        have e2 : base + 1 + K = base + (K + 1) := by omega
        rw [e2]

/-- C1: if the units of every stage before `K` all succeed and some unit of
stage `K` fails, `Stack._run` raises the aggregate `BangError` reporting
stage index `K` and the number of failed units of stage `K`; every unit of
every stage up to and including `K` was started (each stage started because
its predecessor succeeded completely), and no unit of any later stage is
ever started. -/
theorem stage_failure_halts_pipeline (stages : List (List Bool)) (K : Nat)
    (stK : List Bool) (hK : stages.get? K = some stK)
    (hfail : stage_errors stK ≠ 0)
    (hclean : ∀ j stj, j < K → stages.get? j = some stj → stage_errors stj = 0) :
    (stackRun stages).2 = Except.error (K, stage_errors stK) ∧
    (∀ j stj, j ≤ K → stages.get? j = some stj →
      ∀ u, u < stj.length → (j, u) ∈ (stackRun stages).1) ∧
    (∀ su ∈ (stackRun stages).1, su.1 ≤ K) := by
  have hrun := runStagesAux_fail K stages stK 0 [] hK hfail hclean
  rw [stackRun, hrun]
  refine ⟨by simp, ?_, ?_⟩
  · intro j stj hj hjs u hu
    simp only [List.nil_append]
    rw [mem_allUnits]
    refine ⟨j, stj, ?_, by omega, hu⟩
    rw [List.get?_take (by omega)]
    exact hjs
  · intro su hsu
    simp only [List.nil_append] at hsu
    rw [mem_allUnits] at hsu
    obtain ⟨j, stj, hjs, h1, _⟩ := hsu
    have hjlen : j < (stages.take (K + 1)).length := (List.get?_eq_some.mp hjs).1
    have : (stages.take (K + 1)).length ≤ K + 1 := by
      rw [List.length_take]; omega
    omega

/-- Witness for C1 at a concrete run: stage 0 succeeds, stage 1 has two
failing units out of three, stage 2 exists but is never started. -/
theorem stage_failure_halts_pipeline_witness :
    (stackRun [[true, true], [true, false, false], [true]]).2 = Except.error (1, 2) ∧
    (1, 2) ∈ (stackRun [[true, true], [true, false, false], [true]]).1 ∧
    ∀ su ∈ (stackRun [[true, true], [true, false, false], [true]]).1, su.1 ≤ 1 := by
  have h := stage_failure_halts_pipeline [[true, true], [true, false, false], [true]] 1
    [true, false, false] rfl (by decide) (by intro j stj hj hjs; interval_cases j; cases hjs; decide)
  exact ⟨h.1, h.2.1 1 [true, false, false] (by omega) rfl 2 (by decide), h.2.2⟩

/-! ## C10: `Stack.add_host` with omitted group names -/

theorem merge_lists_unchanged (m : SharedMap) (name : String)
    (values : List (String × Val)) : (m.merge name values).lists = m.lists := by
  rw [SharedMap.merge]
  rcases alookup m.dicts name with _ | d
  · rfl
  · dsimp only
    by_cases hd : d.isEmpty
    · rw [if_pos hd]
    · rw [if_neg hd]

theorem merge_sets_key (m : SharedMap) (name : String)
    (values : List (String × Val)) :
    (alookup (m.merge name values).dicts name).isSome = true := by
  rw [SharedMap.merge]
  rcases alookup m.dicts name with _ | d
  · simp [alookup_aset_self]
  · dsimp only
    by_cases hd : d.isEmpty
    · rw [if_pos hd]
      simp [alookup_aset_self]
    · rw [if_neg hd]
      simp [alookup_aset_self]

/-- C10: `Stack.add_host(host)` with `group_names` omitted (`None`) raises a
`TypeError` when it iterates the group names, and only after the host's
variables have already been deep-merged into the shared inventory: the
host's vars are recorded (exactly as a call with an empty group list would
record them) but the host is appended to no group list.  When a
`group_names` list is supplied, the call succeeds and the caller's list is
sorted in place. -/
theorem add_host_none_not_atomic (inv : SharedMap) (host : String)
    (hv : Option (List (String × Val))) :
    ((stack_add_host inv host none hv).err = some PyErr.typeError ∧
     (stack_add_host inv host none hv).inv.lists = inv.lists ∧
     (alookup (stack_add_host inv host none hv).inv.dicts host).isSome = true ∧
     (stack_add_host inv host none hv).inv =
       (stack_add_host inv host (some []) hv).inv) ∧
    (∀ gl, (stack_add_host inv host (some gl) hv).err = none ∧
      (stack_add_host inv host (some gl) hv).callerGroups = some (pySort gl)) := by
  refine ⟨⟨rfl, ?_, ?_, rfl⟩, fun gl => ⟨rfl, rfl⟩⟩
  · exact merge_lists_unchanged inv host _
  · exact merge_sets_key inv host _

/-! ## C7: unknown resource kinds and the stage planner -/

/-- C7 counterexample: a stack configuration whose only stanza is the
resource kind "gizmos" — a kind absent from the static dependency table —
is *not* rejected: planning succeeds, returning five empty stages, because
the planner only ever looks up the kinds listed in `STAGES` and never
inspects unknown configuration keys. -/
theorem unknown_kind_not_rejected :
    planStages ⟨["aws"], [("aws", DEPLOYER_MAP_KEYS)]⟩ [("gizmos", [⟨"aws", 1⟩])] =
      Except.ok [[], [], [], [], []] ∧
    "gizmos" ∉ STAGES.flatten := by
  refine ⟨rfl, by decide⟩

theorem get_stage_deployers_filter (env : PlanEnv) (config : List (String × List ResCfg)) :
    ∀ keys : List String, (∀ k ∈ keys, k ∈ STAGES.flatten) →
      get_stage_deployers env (config.filter (fun p => decide (p.1 ∈ STAGES.flatten))) keys =
        get_stage_deployers env config keys := by
  intro keys
  induction keys with
  | nil => intro _; rfl
  | cons res_type rest ih =>
      intro hmem
      rw [get_stage_deployers, get_stage_deployers]
      rw [alookup_filter_keys config (fun k => decide (k ∈ STAGES.flatten)) res_type
        (by simp [hmem res_type (List.mem_cons_self res_type rest)])]
      rw [ih (fun k hk => hmem k (List.mem_cons_of_mem res_type hk))]

theorem planStagesAux_filter (env : PlanEnv) (config : List (String × List ResCfg)) :
    ∀ kss : List (List String), (∀ ks ∈ kss, ∀ k ∈ ks, k ∈ STAGES.flatten) →
      planStagesAux env (config.filter (fun p => decide (p.1 ∈ STAGES.flatten))) kss =
        planStagesAux env config kss := by
  intro kss
  induction kss with
  | nil => intro _; rfl
  | cons ks rest ih =>
      intro hmem
      rw [planStagesAux, planStagesAux]
      rw [get_stage_deployers_filter env config ks (hmem ks (List.mem_cons_self ks rest))]
      rw [ih (fun ks2 hk2 => hmem ks2 (List.mem_cons_of_mem ks hk2))]

/-- C7 amended: the stage planner silently ignores resource kinds that are
not in the static dependency table: the plan (including whether planning
raises at all) is a function of only the configuration entries whose kind
appears in some stage of `STAGES`; an unknown kind yields no units and no
configuration error. -/
theorem unknown_kinds_silently_ignored (env : PlanEnv)
    (config : List (String × List ResCfg)) :
    planStages env (config.filter (fun p => decide (p.1 ∈ STAGES.flatten))) =
      planStages env config := by
  rw [planStages, planStages]
  exact planStagesAux_filter env config STAGES
    (fun ks hks k hk => List.mem_flatten.mpr ⟨ks, hks, hk⟩)

/-! ## C8: compute-instance discovery and namespace claiming -/

theorem takeWhile_append_of_not_all {α : Type} (p : α → Bool) (l l2 : List α)
    (h : ∃ a ∈ l, p a = false) : (l ++ l2).takeWhile p = l.takeWhile p := by
  induction l with
  | nil =>
      obtain ⟨a, ha, _⟩ := h
      simp at ha
  | cons b tl ih =>
      by_cases hb : p b = true
      · rw [List.cons_append, List.takeWhile_cons_of_pos hb,
          List.takeWhile_cons_of_pos hb]
        obtain ⟨a, ha, hpa⟩ := h
        rcases List.mem_cons.mp ha with rfl | hatl
        · rw [hb] at hpa
          cases hpa
        · rw [ih ⟨a, hatl, hpa⟩]
      · have hb' : p b = false := by
          simpa using hb
        rw [List.cons_append, List.takeWhile_cons_of_neg (by simp [hb']),
          List.takeWhile_cons_of_neg (by simp [hb'])]

theorem findLoopFuel_total :
    ∀ (fuel : Nat) (q ns : List Nat), q.Nodup →
      (q.takeWhile (fun x => decide (x ∈ ns))).length < fuel →
      findLoopFuel fuel q.length q ns ≠ none := by
  intro fuel
  induction fuel with
  | zero => intro q ns _ hlt; omega
  | succ f ih =>
      intro q ns hN hlt
      rcases q with _ | ⟨i, rest⟩
      · rw [findLoopFuel]
        simp
      · rw [findLoopFuel]
        by_cases hi : i ∈ ns
        · have hr : (add_if_unique ns i).1 = false := by
            rw [add_if_unique, if_pos hi]
          rw [hr]
          simp only [Bool.false_eq_true, if_false]
          by_cases hbreak : (i :: rest).length ≤ ns.length
          · rw [if_pos hbreak]
            simp
          · rw [if_neg hbreak]
            by_cases hall : ∀ a ∈ rest, a ∈ ns
            · exfalso
              have hsub : (i :: rest) ⊆ ns := by
                intro a ha
                rcases List.mem_cons.mp ha with rfl | ha2
                · exact hi
                · exact hall a ha2
              exact hbreak ((List.subperm_of_subset hN hsub).length_le)
            · push_neg at hall
              obtain ⟨a, ha, hans⟩ := hall
              have hrot : ((rest ++ [i]).takeWhile (fun x => decide (x ∈ ns))).length <
                  f := by
                rw [takeWhile_append_of_not_all _ rest [i] ⟨a, ha, by simp [hans]⟩]
                rw [List.takeWhile_cons_of_pos (by simp [hi])] at hlt
                simp at hlt
                omega
              have hNrot : (rest ++ [i]).Nodup :=
                ((List.perm_append_singleton i rest).nodup_iff).mpr hN
              have hlen : (i :: rest).length = (rest ++ [i]).length := by
                simp
              rw [hlen]
              exact ih (rest ++ [i]) ns hNrot hrot
        · have hr : (add_if_unique ns i).1 = true := by
            rw [add_if_unique, if_neg hi]
          rw [hr]
          simp

theorem findLoopFuel_found :
    ∀ (fuel maxn : Nat) (q ns : List Nat) (i : Nat) (ns2 : List Nat),
      findLoopFuel fuel maxn q ns = some (some i, ns2) →
      i ∈ q ∧ i ∉ ns ∧ ns2 = ns ++ [i] := by
  intro fuel
  induction fuel with
  | zero => intro maxn q ns i ns2 h; rw [findLoopFuel] at h; cases h
  | succ f ih =>
      intro maxn q ns i ns2 h
      rcases q with _ | ⟨j, rest⟩
      · rw [findLoopFuel] at h
        cases h
      · rw [findLoopFuel] at h
        by_cases hj : j ∈ ns
        · rw [add_if_unique, if_pos hj] at h
          simp only [Bool.false_eq_true, if_false] at h
          by_cases hbreak : maxn ≤ ns.length
          · rw [if_pos hbreak] at h
            cases h
          · rw [if_neg hbreak] at h
            obtain ⟨h1, h2, h3⟩ := ih maxn (rest ++ [j]) ns i ns2 h
            refine ⟨?_, h2, h3⟩
            rcases List.mem_append.mp h1 with hh | hh
            · exact List.mem_cons_of_mem j hh
            · rw [List.mem_singleton.mp hh]
              exact List.mem_cons_self j rest
        · rw [add_if_unique, if_neg hj] at h
          simp only [if_true] at h
          cases h
          exact ⟨List.mem_cons_self _ _, hj, rfl⟩

theorem find_existing_found (c ns : List Nat) (i : Nat) (ns2 : List Nat)
    (h : find_existing c ns = (some i, ns2)) :
    i ∈ c ∧ i ∉ ns ∧ ns2 = ns ++ [i] := by
  rw [find_existing] at h
  rcases hl : findLoopFuel (c.length + 1) c.length c ns with _ | r
  · rw [hl] at h
    cases h
  · rw [hl] at h
    dsimp only at h
    rw [h] at hl
    exact findLoopFuel_found (c.length + 1) c.length c ns i ns2 hl

theorem find_existing_all_claimed (c ns : List Nat) (hN : c.Nodup)
    (hall : ∀ x ∈ c, x ∈ ns) : find_existing c ns = (none, ns) := by
  rcases c with _ | ⟨i, rest⟩
  · rfl
  · have hi : i ∈ ns := hall i (List.mem_cons_self i rest)
    have hbreak : (i :: rest).length ≤ ns.length :=
      (List.subperm_of_subset hN hall).length_le
    rw [find_existing, findLoopFuel]
    rw [add_if_unique, if_pos hi]
    simp only [Bool.false_eq_true, if_false]
    rw [if_pos hbreak]

/-- C8: the discovery loop of `ServerDeployer.find_existing` terminates
within one cycle over the candidate list (the fuel `|candidates| + 1` is
never exhausted for duplicate-free candidates); a unit's claimed server is
always one of the candidates, was not previously claimed, and is recorded in
the shared namespace; if every candidate id is already claimed the unit
falls through to "not found" (so that the create phase runs); and two units
claiming in sequence through the same namespace never obtain the same
server id. -/
theorem server_discovery_claim_loop (c ns c2 : List Nat) (hc : c.Nodup) :
    findLoopFuel (c.length + 1) c.length c ns ≠ none ∧
    (∀ i ns2, find_existing c ns = (some i, ns2) → i ∈ c ∧ i ∉ ns ∧ ns2 = ns ++ [i]) ∧
    ((∀ x ∈ c, x ∈ ns) → find_existing c ns = (none, ns)) ∧
    (∀ i ns2 i2 ns3, find_existing c ns = (some i, ns2) →
      find_existing c2 ns2 = (some i2, ns3) → i2 ≠ i) := by
  refine ⟨?_, fun i ns2 h => find_existing_found c ns i ns2 h,
    find_existing_all_claimed c ns hc, ?_⟩
  · exact findLoopFuel_total (c.length + 1) c ns hc
      (by have := (c.takeWhile (fun x => decide (x ∈ ns))).length
          have hle := (c.takeWhile_sublist (fun x => decide (x ∈ ns))).length_le
          omega)
  · intro i ns2 i2 ns3 h1 h2
    obtain ⟨_, _, hns2⟩ := find_existing_found c ns i ns2 h1
    obtain ⟨_, hi2, _⟩ := find_existing_found c2 ns2 i2 ns3 h2
    intro heq
    apply hi2
    rw [hns2, heq]
    exact List.mem_append_right ns (List.mem_singleton.mpr rfl)

/-- Witness for C8 at concrete inputs: candidates `[5, 7]` with `5` already
claimed — the loop terminates, claims `7`, records it, and a second unit
over the same namespace cannot claim `7` again. -/
theorem server_discovery_claim_loop_witness :
    findLoopFuel 3 2 [5, 7] [5] ≠ none ∧
    7 ∈ [5, 7] ∧ 7 ∉ [5] ∧ [5, 7] = [5] ++ [7] ∧
    find_existing [5, 7] [5, 7] = (none, [5, 7]) := by
  have h := server_discovery_claim_loop [5, 7] [5] [5, 7] (by decide)
  have hfind : find_existing [5, 7] [5] = (some 7, [5, 7]) := by decide
  obtain ⟨h1, h2, _, _⟩ := h
  obtain ⟨ha, hb, hc'⟩ := h2 7 [5, 7] hfind
  exact ⟨h1, ha, hb, hc',
    (server_discovery_claim_loop [5, 7] [5, 7] [] (by decide)).2.2.1 (by decide)⟩

/-! ## C2 / C9: server reconciliation runs against the stub backend -/

theorem get_mem_take_iff (s : List Nat) (hN : s.Nodup) (k j : Nat) (hj : j < s.length) :
    s[j] ∈ s.take k ↔ j < k := by
  constructor
  · intro hmem
    obtain ⟨m, hm, hme⟩ := List.mem_iff_getElem.mp hmem
    have hlt : m < min k s.length := by
      rw [← List.length_take]
      exact hm
    have hml : m < s.length := by omega
    have hsm : s[m] = s[j] := (List.getElem_take s).symm.trans hme
    have := (List.Nodup.getElem_inj_iff hN).mp hsm
    omega
  · intro hk
    have hjk2 : j < (s.take k).length := by
      rw [List.length_take]
      omega
    have h2 : (s.take k)[j] = s[j] := List.getElem_take s
    rw [← h2]
    exact List.getElem_mem hjk2

theorem take_concat_getElem (s : List Nat) (j : Nat) (hj : j < s.length) :
    s.take j ++ [s[j]] = s.take (j + 1) := by
  rw [List.take_succ, List.getElem?_eq_getElem hj]
  rfl

theorem findLoopFuel_rot (s : List Nat) (hN : s.Nodup) (k : Nat) (hk : k < s.length) :
    ∀ (fuel j : Nat), j ≤ k → k - j < fuel →
      findLoopFuel fuel s.length (s.drop j ++ s.take j) (s.take k) =
        some (some (s[k]), s.take (k + 1)) := by
  intro fuel
  induction fuel with
  | zero => intro j hj hlt; omega
  | succ f ih =>
      intro j hj hlt
      have hjlen : j < s.length := by omega
      rw [List.drop_eq_getElem_cons hjlen, List.cons_append, findLoopFuel]
      by_cases hjk : j = k
      · subst hjk
        have hnotmem : s[j] ∉ s.take j := by
          rw [get_mem_take_iff s hN j j hjlen]
          omega
        have hr1 : add_if_unique (s.take j) (s[j]) =
            (true, s.take j ++ [s[j]]) := by
          rw [add_if_unique, if_neg hnotmem]
        rw [hr1, take_concat_getElem s j hjlen]
        simp
      · have hjk' : j < k := by omega
        have hmem : s[j] ∈ s.take k := (get_mem_take_iff s hN k j hjlen).mpr hjk'
        have hr1 : (add_if_unique (s.take k) (s[j])).1 = false := by
          rw [add_if_unique, if_pos hmem]
        rw [hr1]
        simp only [Bool.false_eq_true, if_false]
        have hbreak : ¬ (s.length ≤ (s.take k).length) := by
          rw [List.length_take]
          omega
        rw [if_neg hbreak]
        have hq : s.drop (j + 1) ++ s.take j ++ [s[j]] =
            s.drop (j + 1) ++ s.take (j + 1) := by
          rw [List.append_assoc, take_concat_getElem s j hjlen]
        rw [hq]
        exact ih (j + 1) (by omega) (by omega)

theorem find_existing_take (s : List Nat) (hN : s.Nodup) (k : Nat) (hk : k < s.length) :
    find_existing s (s.take k) = (some (s[k]), s.take (k + 1)) := by
  have h0 := findLoopFuel_rot s hN k hk (s.length + 1) 0 (by omega) (by omega)
  rw [List.drop_zero, List.take_zero, List.append_nil] at h0
  rw [find_existing, h0]

theorem find_existing_take_exhausted (s : List Nat) (hN : s.Nodup) (k : Nat)
    (hk : s.length ≤ k) : find_existing s (s.take k) = (none, s.take k) := by
  have ht : s.take k = s := List.take_of_length_le hk
  rw [ht]
  exact find_existing_all_claimed s s hN (fun x hx => hx)

theorem serverUnitDeploy_claim (cfg : SrvCfg) (s created : List Nat) (x k : Nat)
    (inv : SharedMap) (calls : List CCall) (hN : s.Nodup) (hk : k < s.length) :
    serverUnitDeploy cfg ⟨s, created, x, s.take k, inv, calls⟩ =
      ⟨s, created, x, s.take (k + 1), invAddHost cfg inv (s[k]),
       calls ++ [CCall.findServers, CCall.findRunning (s[k])]⟩ := by
  rw [serverUnitDeploy]
  simp only [find_existing_take s hN k hk, addToInventoryPhase, invAddHost]
  rw [List.append_assoc]
  rfl

theorem serverUnitDeploy_create (cfg : SrvCfg) (s created : List Nat) (x k : Nat)
    (inv : SharedMap) (calls : List CCall) (hN : s.Nodup) (hk : s.length ≤ k) :
    serverUnitDeploy cfg ⟨s, created, x, s.take k, inv, calls⟩ =
      ⟨s, created ++ [x], x + 1, s.take k, invAddHost cfg inv x,
       calls ++ [CCall.findServers, CCall.createServer x]⟩ := by
  rw [serverUnitDeploy]
  simp only [find_existing_take_exhausted s hN k hk, addToInventoryPhase, invAddHost]
  rw [List.append_assoc]
  rfl

theorem runUnits_deploy_spec (cfg : SrvCfg) :
    ∀ (n : Nat) (s created : List Nat) (x k : Nat) (inv : SharedMap)
      (calls : List CCall), s.Nodup → k ≤ s.length →
      runUnits serverUnitDeploy cfg n ⟨s, created, x, s.take k, inv, calls⟩ =
        ⟨s,
         created ++ List.range' x (n - min n (s.length - k)),
         x + (n - min n (s.length - k)),
         s.take (k + min n (s.length - k)),
         invOfIds cfg inv
           ((s.drop k).take n ++ List.range' x (n - min n (s.length - k))),
         calls ++ deployCallsOf ((s.drop k).take n)
           (List.range' x (n - min n (s.length - k)))⟩ := by
  intro n
  induction n with
  | zero =>
      intro s created x k inv calls hN hk
      simp [runUnits, invOfIds, deployCallsOf]
  | succ n ih =>
      intro s created x k inv calls hN hk
      by_cases hklt : k < s.length
      · rw [runUnits, serverUnitDeploy_claim cfg s created x k inv calls hN hklt]
        rw [ih s created x (k + 1) (invAddHost cfg inv (s[k]))
          (calls ++ [CCall.findServers, CCall.findRunning (s[k])]) hN (by omega)]
        have e1 : n - min n (s.length - (k + 1)) =
            (n + 1) - min (n + 1) (s.length - k) := by omega
        have e2 : (k + 1) + min n (s.length - (k + 1)) =
            k + min (n + 1) (s.length - k) := by omega
        have e3 : (s.drop k).take (n + 1) = s[k] :: (s.drop (k + 1)).take n := by
          rw [List.drop_eq_getElem_cons hklt, List.take_succ_cons]
        rw [e1, e2, e3]
        simp only [RunSt.mk.injEq, true_and]
        refine ⟨?_, ?_⟩
        · rw [List.cons_append]
          rfl
        · simp [deployCallsOf, List.append_assoc]
      · have hke : s.length ≤ k := by omega
        rw [runUnits, serverUnitDeploy_create cfg s created x k inv calls hN hke]
        rw [ih s (created ++ [x]) (x + 1) k (invAddHost cfg inv x)
          (calls ++ [CCall.findServers, CCall.createServer x]) hN hk]
        have hd0 : s.length - k = 0 := by omega
        rw [hd0]
        simp only [Nat.min_zero, Nat.sub_zero]
        have e1 : (created ++ [x]) ++ List.range' (x + 1) n =
            created ++ List.range' x (n + 1) := by
          rw [List.append_assoc, List.range'_succ x n 1]
          rfl
        have e2 : x + 1 + n = x + (n + 1) := by omega
        have edrop : s.drop k = ([] : List Nat) := List.drop_eq_nil_of_le hke
        rw [e1, e2, edrop]
        simp only [RunSt.mk.injEq, true_and]
        refine ⟨?_, ?_⟩
        · simp only [List.take_nil, List.nil_append, List.range'_succ x n 1]
          rfl
        · simp [deployCallsOf, List.range'_succ x n 1, List.append_assoc]

theorem serverUnitInventory_claim (cfg : SrvCfg) (s created : List Nat) (x k : Nat)
    (inv : SharedMap) (calls : List CCall) (hN : s.Nodup) (hk : k < s.length) :
    serverUnitInventory cfg ⟨s, created, x, s.take k, inv, calls⟩ =
      ⟨s, created, x, s.take (k + 1), invAddHost cfg inv (s[k]),
       calls ++ [CCall.findServers]⟩ := by
  rw [serverUnitInventory]
  simp only [find_existing_take s hN k hk, addToInventoryPhase, invAddHost]

theorem serverUnitInventory_none (cfg : SrvCfg) (s created : List Nat) (x k : Nat)
    (inv : SharedMap) (calls : List CCall) (hN : s.Nodup) (hk : s.length ≤ k) :
    serverUnitInventory cfg ⟨s, created, x, s.take k, inv, calls⟩ =
      ⟨s, created, x, s.take k, inv, calls ++ [CCall.findServers]⟩ := by
  rw [serverUnitInventory]
  simp only [find_existing_take_exhausted s hN k hk, addToInventoryPhase]

theorem runUnits_inventory_spec (cfg : SrvCfg) :
    ∀ (n : Nat) (s created : List Nat) (x k : Nat) (inv : SharedMap)
      (calls : List CCall), s.Nodup → k ≤ s.length →
      runUnits serverUnitInventory cfg n ⟨s, created, x, s.take k, inv, calls⟩ =
        ⟨s, created, x, s.take (k + min n (s.length - k)),
         invOfIds cfg inv ((s.drop k).take n),
         calls ++ List.replicate n CCall.findServers⟩ := by
  intro n
  induction n with
  | zero =>
      intro s created x k inv calls hN hk
      simp [runUnits, invOfIds]
  | succ n ih =>
      intro s created x k inv calls hN hk
      by_cases hklt : k < s.length
      · rw [runUnits, serverUnitInventory_claim cfg s created x k inv calls hN hklt]
        rw [ih s created x (k + 1) (invAddHost cfg inv (s[k]))
          (calls ++ [CCall.findServers]) hN (by omega)]
        have e2 : (k + 1) + min n (s.length - (k + 1)) =
            k + min (n + 1) (s.length - k) := by omega
        have e3 : (s.drop k).take (n + 1) = s[k] :: (s.drop (k + 1)).take n := by
          rw [List.drop_eq_getElem_cons hklt, List.take_succ_cons]
        rw [e2, e3]
        simp only [RunSt.mk.injEq, true_and]
        exact ⟨rfl, by rw [List.append_assoc, List.replicate_succ]; rfl⟩
      · have hke : s.length ≤ k := by omega
        rw [runUnits, serverUnitInventory_none cfg s created x k inv calls hN hke]
        rw [ih s created x k inv (calls ++ [CCall.findServers]) hN hk]
        have hd0 : s.length - k = 0 := by omega
        have edrop : s.drop k = ([] : List Nat) := List.drop_eq_nil_of_le hke
        rw [hd0, edrop]
        simp only [Nat.min_zero, List.take_nil, RunSt.mk.injEq, true_and]
        rw [List.append_assoc, List.replicate_succ]
        rfl

theorem countCreates_append (a b : List CCall) :
    countCreates (a ++ b) = countCreates a + countCreates b := by
  simp [countCreates, List.filter_append]

theorem countCreates_deployCallsOf (cl cr : List Nat) :
    countCreates (deployCallsOf cl cr) = cr.length := by
  rw [deployCallsOf, countCreates_append]
  have h1 : ∀ l : List Nat,
      countCreates ((l.map (fun i => [CCall.findServers, CCall.findRunning i])).flatten) = 0 := by
    intro l
    induction l with
    | nil => rfl
    | cons a tl ih =>
        rw [List.map_cons, List.flatten_cons, countCreates_append, ih]
        rfl
  have h2 : ∀ l : List Nat,
      countCreates ((l.map (fun i => [CCall.findServers, CCall.createServer i])).flatten) = l.length := by
    intro l
    induction l with
    | nil => rfl
    | cons a tl ih =>
        rw [List.map_cons, List.flatten_cons, countCreates_append, ih]
        have hc : countCreates [CCall.findServers, CCall.createServer a] = 1 := rfl
        rw [hc, List.length_cons]
        omega
  rw [h1 cl, h2 cr]
  omega

theorem countCreates_replicate_find (n : Nat) :
    countCreates (List.replicate n CCall.findServers) = 0 := by
  induction n with
  | zero => rfl
  | succ n ih =>
      rw [List.replicate_succ]
      have : (CCall.findServers :: List.replicate n CCall.findServers) =
          [CCall.findServers] ++ List.replicate n CCall.findServers := rfl
      rw [this, countCreates_append, ih]
      rfl

theorem deployRun_spec (cfg : SrvCfg) (n : Nat) (b : Backend) (hN : b.servers.Nodup) :
    deployRun cfg n b =
      ⟨⟨b.servers ++ List.range' b.nextId (n - min n b.servers.length),
        b.nextId + (n - min n b.servers.length)⟩,
       invOfIds cfg SharedMap.empty
         (b.servers.take n ++ List.range' b.nextId (n - min n b.servers.length)),
       deployCallsOf (b.servers.take n)
         (List.range' b.nextId (n - min n b.servers.length)),
       true⟩ := by
  rw [deployRun, initSt]
  have h := runUnits_deploy_spec cfg n b.servers [] b.nextId 0 SharedMap.empty [] hN
    (by omega)
  simp only [List.take_zero, List.drop_zero, Nat.zero_add, Nat.sub_zero] at h
  rw [h]
  simp only [List.nil_append]

theorem gatherInventoryRun_spec (cfg : SrvCfg) (n : Nat) (b : Backend)
    (hN : b.servers.Nodup) :
    gatherInventoryRun cfg n b =
      ⟨b, invOfIds cfg SharedMap.empty (b.servers.take n),
       List.replicate n CCall.findServers, true⟩ := by
  obtain ⟨srv, x⟩ := b
  rw [gatherInventoryRun, initSt]
  have h := runUnits_inventory_spec cfg n srv [] x 0 SharedMap.empty [] hN (by omega)
  simp only [List.take_zero, List.drop_zero, Nat.zero_add, Nat.sub_zero] at h
  rw [h]
  simp only [List.nil_append, List.append_nil]

theorem countAllCreates_append (a b : List CCall) :
    countAllCreates (a ++ b) = countAllCreates a + countAllCreates b := by
  simp [countAllCreates, List.filter_append]

theorem countAllCreates_deployCallsOf (cl cr : List Nat) :
    countAllCreates (deployCallsOf cl cr) = cr.length := by
  rw [deployCallsOf, countAllCreates_append]
  have h1 : ∀ l : List Nat,
      countAllCreates ((l.map (fun i => [CCall.findServers, CCall.findRunning i])).flatten) = 0 := by
    intro l
    induction l with
    | nil => rfl
    | cons a tl ih =>
        rw [List.map_cons, List.flatten_cons, countAllCreates_append, ih]
        rfl
  have h2 : ∀ l : List Nat,
      countAllCreates ((l.map (fun i => [CCall.findServers, CCall.createServer i])).flatten) = l.length := by
    intro l
    induction l with
    | nil => rfl
    | cons a tl ih =>
        rw [List.map_cons, List.flatten_cons, countAllCreates_append, ih]
        have hc : countAllCreates [CCall.findServers, CCall.createServer a] = 1 := rfl
        rw [hc, List.length_cons]
        omega
  rw [h1 cl, h2 cr]
  omega

/-- Running the server stage twice against the same backend: the second
pass issues no creates of any kind (every unit's discovery phase claims a
server left by the first pass, so each create predicate evaluates false)
and reproduces the first pass's inventory and backend. -/
theorem deploy_twice_server_units (cfg : SrvCfg) (n : Nat) (b : Backend)
    (hN : b.servers.Nodup) (hfresh : ∀ x ∈ b.servers, x < b.nextId) :
    countCreates (deployRun cfg n (deployRun cfg n b).backend).calls = 0 ∧
    countAllCreates (deployRun cfg n (deployRun cfg n b).backend).calls = 0 ∧
    (deployRun cfg n (deployRun cfg n b).backend).inv = (deployRun cfg n b).inv ∧
    (deployRun cfg n (deployRun cfg n b).backend).backend = (deployRun cfg n b).backend := by
  obtain ⟨s, x⟩ := b
  have h1 := deployRun_spec cfg n ⟨s, x⟩ hN
  simp only at h1
  rw [h1]
  have hN1 : (s ++ List.range' x (n - min n s.length)).Nodup := by
    rw [List.nodup_append]
    refine ⟨hN, List.nodup_range' x (n - min n s.length), ?_⟩
    intro a ha ha2
    have hlt : a < x := hfresh a ha
    have hge := (List.mem_range'_1.mp ha2).1
    omega
  have h2 := deployRun_spec cfg n
    ⟨s ++ List.range' x (n - min n s.length), x + (n - min n s.length)⟩ hN1
  simp only at h2
  have hm1 : (s ++ List.range' x (n - min n s.length)).length =
      s.length + (n - min n s.length) := by
    rw [List.length_append, List.length_range']
  have hd2 : n - min n (s.length + (n - min n s.length)) = 0 := by omega
  rw [hm1, hd2] at h2
  simp only [List.range'_zero, List.append_nil, Nat.add_zero] at h2
  have htake : (s ++ List.range' x (n - min n s.length)).take n =
      s.take n ++ List.range' x (n - min n s.length) := by
    rw [List.take_append_eq_append_take]
    congr 1
    apply List.take_of_length_le
    rw [List.length_range']
    omega
  rw [htake] at h2
  rw [h2]
  exact ⟨by rw [countCreates_deployCallsOf]; rfl,
    by rw [countAllCreates_deployCallsOf]; rfl, rfl, rfl⟩

/-- C9: `gather_inventory()` runs only discovery/registration: for any stack
of `n` server clones and any backend, the run issues no create calls to the
consul, leaves the backend unchanged, still populates the shared inventory
with the discovered servers, and sets the inventory-complete flag
afterwards; moreover, by construction, no deployer class wires a
provisioning action into its `inventory_phases`. -/
theorem gather_inventory_read_only (cfg : SrvCfg) (n : Nat) (b : Backend)
    (hN : b.servers.Nodup) :
    countCreates (gatherInventoryRun cfg n b).calls = 0 ∧
    (gatherInventoryRun cfg n b).backend = b ∧
    (gatherInventoryRun cfg n b).have_inventory = true ∧
    (gatherInventoryRun cfg n b).inv = invOfIds cfg SharedMap.empty (b.servers.take n) ∧
    (∀ dc : DeployerClass, ∀ p ∈ inventory_phases dc, provisioningPhase p = false) := by
  have h := gatherInventoryRun_spec cfg n b hN
  rw [h]
  exact ⟨countCreates_replicate_find n, rfl, rfl, rfl, by intro dc; cases dc <;> decide⟩

/-- Witness for C9 at a concrete stack: three clones gathering inventory
over a backend with two existing servers — no creates, backend unchanged,
both servers inventoried. -/
theorem gather_inventory_read_only_witness :
    countCreates (gatherInventoryRun ⟨"web", ["webservers"], []⟩ 3 ⟨[3, 5], 9⟩).calls = 0 ∧
    (gatherInventoryRun ⟨"web", ["webservers"], []⟩ 3 ⟨[3, 5], 9⟩).backend = ⟨[3, 5], 9⟩ ∧
    (gatherInventoryRun ⟨"web", ["webservers"], []⟩ 3 ⟨[3, 5], 9⟩).have_inventory = true := by
  have h := gather_inventory_read_only ⟨"web", ["webservers"], []⟩ 3 ⟨[3, 5], 9⟩ (by decide)
  exact ⟨h.1, h.2.1, h.2.2.1⟩

/-! ## C2: bucket units create unconditionally; servers are idempotent -/

theorem countCreates_bucketCalls (sn : String) : ∀ names : List String,
    countCreates (names.map (fun bn => CCall.createBucket (sn ++ "-" ++ bn))) = 0 := by
  intro names
  induction names with
  | nil => rfl
  | cons a tl ih =>
      rw [List.map_cons]
      have h1 : (CCall.createBucket (sn ++ "-" ++ a) ::
          tl.map (fun bn => CCall.createBucket (sn ++ "-" ++ bn))) =
          [CCall.createBucket (sn ++ "-" ++ a)] ++
            tl.map (fun bn => CCall.createBucket (sn ++ "-" ++ bn)) := rfl
      rw [h1, countCreates_append, ih]
      rfl

theorem countAllCreates_bucketCalls (sn : String) : ∀ names : List String,
    countAllCreates (names.map (fun bn => CCall.createBucket (sn ++ "-" ++ bn))) =
      names.length := by
  intro names
  induction names with
  | nil => rfl
  | cons a tl ih =>
      rw [List.map_cons]
      have h1 : (CCall.createBucket (sn ++ "-" ++ a) ::
          tl.map (fun bn => CCall.createBucket (sn ++ "-" ++ bn))) =
          [CCall.createBucket (sn ++ "-" ++ a)] ++
            tl.map (fun bn => CCall.createBucket (sn ++ "-" ++ bn)) := rfl
      rw [h1, countAllCreates_append, ih]
      have hc : countAllCreates [CCall.createBucket (sn ++ "-" ++ a)] = 1 := rfl
      rw [hc, List.length_cons]
      omega

theorem s3CreateBucket_self_mem (st : S3State) (name : String) :
    name ∈ (s3CreateBucket st name).buckets := by
  rw [s3CreateBucket]
  by_cases h : name ∈ st.buckets
  · rw [if_pos h]
    exact h
  · rw [if_neg h]
    exact List.mem_append_right _ (List.mem_singleton.mpr rfl)

theorem s3CreateBucket_mono (st : S3State) (n n2 : String) (h : n ∈ st.buckets) :
    n ∈ (s3CreateBucket st n2).buckets := by
  rw [s3CreateBucket]
  by_cases h2 : n2 ∈ st.buckets
  · rw [if_pos h2]
    exact h
  · rw [if_neg h2]
    exact List.mem_append_left _ h

theorem bucketStageRun_mono (sn : String) : ∀ (names : List String) (s3 : S3State)
    (n : String), n ∈ s3.buckets → n ∈ (bucketStageRun sn names s3).1.buckets := by
  intro names
  induction names with
  | nil => intro s3 n h; exact h
  | cons a tl ih =>
      intro s3 n h
      rw [bucketStageRun]
      exact ih _ n (s3CreateBucket_mono s3 n _ h)

theorem bucketStageRun_mem_final (sn : String) : ∀ (names : List String) (s3 : S3State)
    (bn : String), bn ∈ names →
    (sn ++ "-" ++ bn) ∈ (bucketStageRun sn names s3).1.buckets := by
  intro names
  induction names with
  | nil =>
      intro s3 bn h
      simp at h
  | cons a tl ih =>
      intro s3 bn h
      rcases List.mem_cons.mp h with rfl | htl
      · rw [bucketStageRun]
        exact bucketStageRun_mono sn tl _ _ (s3CreateBucket_self_mem s3 _)
      · rw [bucketStageRun]
        exact ih _ bn htl

theorem bucketStageRun_stable (sn : String) : ∀ (names : List String) (s3 : S3State),
    (∀ bn ∈ names, (sn ++ "-" ++ bn) ∈ s3.buckets) →
    (bucketStageRun sn names s3).1 = s3 := by
  intro names
  induction names with
  | nil => intro s3 _; rfl
  | cons a tl ih =>
      intro s3 h
      rw [bucketStageRun]
      have ha : s3CreateBucket s3 (sn ++ "-" ++ a) = s3 := by
        rw [s3CreateBucket, if_pos (h a (List.mem_cons_self a tl))]
      rw [ha]
      exact ih s3 (fun bn hbn => h bn (List.mem_cons_of_mem a hbn))

theorem bucketStageRun_calls (sn : String) : ∀ (names : List String) (s3 : S3State),
    (bucketStageRun sn names s3).2 =
      names.map (fun bn => CCall.createBucket (sn ++ "-" ++ bn)) := by
  intro names
  induction names with
  | nil => intro s3; rfl
  | cons a tl ih =>
      intro s3
      rw [bucketStageRun, List.map_cons]
      rw [ih]

/-- C2 counterexample: the claim fails on a stack definition containing a
bucket.  `BucketDeployer`'s only phase is the unconditional
`(True, self.create)`, so over the stack "mystack" declaring the single
bucket "assets" (and no servers), the second `deploy()` run against the
backend state left by the first issues the create call
`create_bucket("mystack-assets")` again — one create call, not zero. -/
theorem deploy_twice_bucket_not_create_free :
    countAllCreates (stackDeployRun ⟨"mystack", ⟨"web", ["webservers"], []⟩, 0, ["assets"]⟩
        (stackDeployRun ⟨"mystack", ⟨"web", ["webservers"], []⟩, 0, ["assets"]⟩
          ⟨[], 0⟩ ⟨[]⟩).backend
        (stackDeployRun ⟨"mystack", ⟨"web", ["webservers"], []⟩, 0, ["assets"]⟩
          ⟨[], 0⟩ ⟨[]⟩).s3).calls = 1 ∧
    (stackDeployRun ⟨"mystack", ⟨"web", ["webservers"], []⟩, 0, ["assets"]⟩
        (stackDeployRun ⟨"mystack", ⟨"web", ["webservers"], []⟩, 0, ["assets"]⟩
          ⟨[], 0⟩ ⟨[]⟩).backend
        (stackDeployRun ⟨"mystack", ⟨"web", ["webservers"], []⟩, 0, ["assets"]⟩
          ⟨[], 0⟩ ⟨[]⟩).s3).calls = [CCall.createBucket "mystack-assets"] ∧
    (1 : Nat) ≠ 0 := by
  refine ⟨by decide, by decide, by omega⟩

/-- C2 amended: running `deploy()` twice with the same stack definition
(`servers` and `buckets` stanzas) against the same backend state reproduces
the `SharedInventory` contents and the backend state (EC2 and S3), and the
second run issues zero create calls for the server units — every
server-create predicate evaluates false because the first run's servers are
found and claimed by the discovery phases.  The zero-create-calls part does
not extend to buckets: `BucketDeployer`'s create phase is unconditional, so
every run — the second included — issues exactly one `create_bucket` call
per declared bucket (accepted and ineffective on the already-existing
buckets). -/
theorem deploy_twice_amended (cfg : StackCfg) (b : Backend) (s3 : S3State)
    (hN : b.servers.Nodup) (hfresh : ∀ x ∈ b.servers, x < b.nextId) :
    countCreates (stackDeployRun cfg (stackDeployRun cfg b s3).backend
        (stackDeployRun cfg b s3).s3).calls = 0 ∧
    countAllCreates (stackDeployRun cfg (stackDeployRun cfg b s3).backend
        (stackDeployRun cfg b s3).s3).calls = cfg.buckets.length ∧
    (stackDeployRun cfg (stackDeployRun cfg b s3).backend
        (stackDeployRun cfg b s3).s3).inv = (stackDeployRun cfg b s3).inv ∧
    (stackDeployRun cfg (stackDeployRun cfg b s3).backend
        (stackDeployRun cfg b s3).s3).backend = (stackDeployRun cfg b s3).backend ∧
    (stackDeployRun cfg (stackDeployRun cfg b s3).backend
        (stackDeployRun cfg b s3).s3).s3 = (stackDeployRun cfg b s3).s3 := by
  obtain ⟨sn, scfg, n, bnames⟩ := cfg
  have hs := deploy_twice_server_units scfg n b hN hfresh
  simp only [stackDeployRun]
  rw [bucketStageRun_calls sn bnames (bucketStageRun sn bnames s3).1]
  have hstable : (bucketStageRun sn bnames (bucketStageRun sn bnames s3).1).1 =
      (bucketStageRun sn bnames s3).1 :=
    bucketStageRun_stable sn bnames (bucketStageRun sn bnames s3).1
      (fun bn hbn => bucketStageRun_mem_final sn bnames s3 bn hbn)
  refine ⟨?_, ?_, hs.2.2.1, hs.2.2.2, hstable⟩
  · rw [countCreates_append, countCreates_bucketCalls sn bnames, hs.1]
  · rw [countAllCreates_append, countAllCreates_bucketCalls sn bnames, hs.2.1]
    omega

/-- Witness for C2's amended statement at a concrete stack: two server
clones plus one bucket deployed twice against an initially empty backend —
the second run issues no server creates, exactly one bucket create, and
reproduces the first run's inventory, EC2 backend and S3 state. -/
theorem deploy_twice_amended_witness :
    countCreates (stackDeployRun ⟨"mystack", ⟨"web", ["webservers"], []⟩, 2, ["assets"]⟩
        (stackDeployRun ⟨"mystack", ⟨"web", ["webservers"], []⟩, 2, ["assets"]⟩
          ⟨[], 0⟩ ⟨[]⟩).backend
        (stackDeployRun ⟨"mystack", ⟨"web", ["webservers"], []⟩, 2, ["assets"]⟩
          ⟨[], 0⟩ ⟨[]⟩).s3).calls = 0 ∧
    countAllCreates (stackDeployRun ⟨"mystack", ⟨"web", ["webservers"], []⟩, 2, ["assets"]⟩
        (stackDeployRun ⟨"mystack", ⟨"web", ["webservers"], []⟩, 2, ["assets"]⟩
          ⟨[], 0⟩ ⟨[]⟩).backend
        (stackDeployRun ⟨"mystack", ⟨"web", ["webservers"], []⟩, 2, ["assets"]⟩
          ⟨[], 0⟩ ⟨[]⟩).s3).calls = 1 ∧
    (stackDeployRun ⟨"mystack", ⟨"web", ["webservers"], []⟩, 2, ["assets"]⟩
        (stackDeployRun ⟨"mystack", ⟨"web", ["webservers"], []⟩, 2, ["assets"]⟩
          ⟨[], 0⟩ ⟨[]⟩).backend
        (stackDeployRun ⟨"mystack", ⟨"web", ["webservers"], []⟩, 2, ["assets"]⟩
          ⟨[], 0⟩ ⟨[]⟩).s3).inv =
      (stackDeployRun ⟨"mystack", ⟨"web", ["webservers"], []⟩, 2, ["assets"]⟩
        ⟨[], 0⟩ ⟨[]⟩).inv ∧
    (stackDeployRun ⟨"mystack", ⟨"web", ["webservers"], []⟩, 2, ["assets"]⟩
        (stackDeployRun ⟨"mystack", ⟨"web", ["webservers"], []⟩, 2, ["assets"]⟩
          ⟨[], 0⟩ ⟨[]⟩).backend
        (stackDeployRun ⟨"mystack", ⟨"web", ["webservers"], []⟩, 2, ["assets"]⟩
          ⟨[], 0⟩ ⟨[]⟩).s3).backend =
      (stackDeployRun ⟨"mystack", ⟨"web", ["webservers"], []⟩, 2, ["assets"]⟩
        ⟨[], 0⟩ ⟨[]⟩).backend ∧
    (stackDeployRun ⟨"mystack", ⟨"web", ["webservers"], []⟩, 2, ["assets"]⟩
        (stackDeployRun ⟨"mystack", ⟨"web", ["webservers"], []⟩, 2, ["assets"]⟩
          ⟨[], 0⟩ ⟨[]⟩).backend
        (stackDeployRun ⟨"mystack", ⟨"web", ["webservers"], []⟩, 2, ["assets"]⟩
          ⟨[], 0⟩ ⟨[]⟩).s3).s3 =
      (stackDeployRun ⟨"mystack", ⟨"web", ["webservers"], []⟩, 2, ["assets"]⟩
        ⟨[], 0⟩ ⟨[]⟩).s3 :=
  deploy_twice_amended ⟨"mystack", ⟨"web", ["webservers"], []⟩, 2, ["assets"]⟩
    ⟨[], 0⟩ ⟨[]⟩ (by decide) (by decide)

end Bang
